import Mathlib

/-!
Shallow embedding of the A1-notation coordinate codec and grid reconciler of
the `gsheet_api` repository (file `src/utils.rs`), together with the data
model it operates on (`src/models/value.rs`, `src/models/cell.rs`, the
`GridRange` structure as used by `src/utils.rs`, and `src/error.rs`).

Strings are embedded as `List Char` (Rust iterates `str::chars()`), machine
integers (`usize`) as `Nat` with an explicit `% 2^64` wherever the source can
overflow: the only such places are the two accumulators of `parse_a1_cell`
(`col * 26 + rank` and `row * 10 + digit`), which wrap on the source's 64-bit
release builds once a letter run of 14+ letters or a digit run of 20+ digits
is fed in (debug builds panic at the same threshold; the value-level theorems
below are stated under no-overflow bounds, inside which both profiles agree
with the exact value). All remaining `usize` arithmetic (the formatter's
divisions, the reconcilers' offset subtractions) cannot overflow or
underflow. Fallible functions return `Except GSheetError`.
-/

deriving instance DecidableEq for Except

namespace GSheet

/-- Embedding of `GSheetError` (src/error.rs). Only the `UtilsError` variant is
reachable from the utils module; the transport/auth variants are omitted as
they never occur in the code under verification. The spec's error kinds map to
the message strings: `InvalidReference` is `UtilsError "Invalid character"` or
`UtilsError "Invalid A1 notation"` or `UtilsError "Invalid column index"`,
`InvalidRange` is `UtilsError "Invalid range"`, and `MissingRange` is
`UtilsError "ValueRange.range is None"`. -/
inductive GSheetError where
  | UtilsError (msg : String)
deriving Repr, DecidableEq

/-- Embedding of `GridRange` as constructed and consumed by `src/utils.rs`
(`a1_to_grid_range` fills every index field with `Some` and the reconcilers
`unwrap` them). -/
structure GridRange where
  sheet_id : Option Int
  start_row_index : Option Nat
  end_row_index : Option Nat
  start_column_index : Option Nat
  end_column_index : Option Nat
deriving Repr, DecidableEq

/-- Embedding of `Cell` (src/models/cell.rs). -/
structure Cell where
  address : List Char
  sheet_id : List Char
  sheet_title : List Char
  value : Option (List Char)
  col_index : Nat
  col : List Char
  row_index : Nat
deriving Repr, DecidableEq

/-- Embedding of `Dimension` (src/models/value.rs). -/
inductive Dimension where
  | DimensionUnspecified
  | Rows
  | Columns
deriving Repr, DecidableEq

/-- Embedding of `ValueRange` (src/models/value.rs). -/
structure ValueRange where
  range : Option (List Char)
  major_dimension : Option Dimension
  values : Option (List (List (List Char)))
deriving Repr, DecidableEq

/-- Embedding of Rust `str::trim` on the character list (drop whitespace from
both ends). -/
def trimChars (s : List Char) : List Char :=
  ((s.dropWhile Char.isWhitespace).reverse.dropWhile Char.isWhitespace).reverse

/-- The modulus of the source's `usize` arithmetic: the crate is built for
64-bit targets, so `usize` holds values below `2^64`. -/
def usizeSize : Nat := 2 ^ 64

/-- The character loop of `parse_a1_cell` (src/utils.rs lines 68-81): state is
the accumulated column, row, and the `col_part` flag. The two accumulators
are `usize` in the source, so each accumulation step carries an explicit
wrap-around `% usizeSize` (the release-profile behaviour; debug builds panic
at the same threshold, and every theorem below that speaks about the
accumulated values restricts to the no-overflow range on which the two
profiles and the exact value coincide). -/
def parse_a1_cell_go : List Char → Nat → Nat → Bool → Except GSheetError (Nat × Nat)
  | [], col, row, _ =>
      if 0 < col ∧ 0 < row then .ok (col, row)
      else .error (.UtilsError "Invalid A1 notation")
  | c :: rest, col, row, col_part =>
      if c.isAlpha && col_part then
        parse_a1_cell_go rest
          ((col * 26 + (c.toUpper.toNat - 'A'.toNat + 1)) % usizeSize) row col_part
      else if c.isDigit then
        parse_a1_cell_go rest col
          ((row * 10 + (c.toNat - '0'.toNat)) % usizeSize) false
      else .error (.UtilsError "Invalid character")

/-- Embedding of `parse_a1_cell` (src/utils.rs lines 67-88). -/
def parse_a1_cell (a1 : List Char) : Except GSheetError (Nat × Nat) :=
  parse_a1_cell_go a1 0 0 true

/-- Embedding of `split_sheet_range` (src/utils.rs lines 158-171). -/
def split_sheet_range (a1 : List Char) : Except GSheetError (List Char × List Char) :=
  let range_part := trimChars a1
  if range_part.contains '!' then
    match range_part.splitOn '!' with
    | [a, b] => .ok (a, b)
    | _ => .error (.UtilsError "Invalid range")
  else
    .error (.UtilsError "Invalid range")

/-- Embedding of `a1_to_grid_range` (src/utils.rs lines 117-143), with the
Rust `?` operators written as explicit matches. -/
def a1_to_grid_range (a1 : List Char) : Except GSheetError GridRange :=
  let range_part := trimChars a1
  let sheet_res : Except GSheetError (List Char) :=
    if range_part.contains '!' then
      match split_sheet_range range_part with
      | .ok (_, r) => .ok r
      | .error e => .error e
    else .ok range_part
  match sheet_res with
  | .error e => .error e
  | .ok range_part =>
    let pair_res : Except GSheetError (List Char × List Char) :=
      match range_part.splitOn ':' with
      | [x] => .ok (x, x)
      | [x, y] => .ok (x, y)
      | _ => .error (.UtilsError "Invalid range")
    match pair_res with
    | .error e => .error e
    | .ok (s, e) =>
      match parse_a1_cell s with
      | .error err => .error err
      | .ok (start_col, start_row) =>
        match parse_a1_cell e with
        | .error err => .error err
        | .ok (end_col, end_row) =>
          .ok { sheet_id := none
                start_row_index := some start_row
                end_row_index := some end_row
                start_column_index := some start_col
                end_column_index := some end_col }

/-- Fueled form of the `while col_index > 0` loop of `col_index_to_a1`
(src/utils.rs lines 208-212); the fuel argument only makes the recursion
structural, `col_loop n n` computes the loop's result (see `colAux`). -/
def col_loop : Nat → Nat → List Char
  | _, 0 => []
  | 0, _ + 1 => []
  | fuel + 1, n + 1 => col_loop fuel (n / 26) ++ [Char.ofNat ('A'.toNat + n % 26)]

/-- The column-letter string computed by the loop of `col_index_to_a1` for a
given index. -/
def colAux (n : Nat) : List Char :=
  col_loop n n

/-- Embedding of `col_index_to_a1` (src/utils.rs lines 200-215). -/
def col_index_to_a1 (col_index : Nat) : Except GSheetError (List Char) :=
  if col_index = 0 then .error (.UtilsError "Invalid column index")
  else .ok (colAux col_index)

/-- Fueled decimal rendering; `dec_loop n n` is the decimal representation of
`n`, embedding Rust's `format!` of a `usize` (used to build cell addresses). -/
def dec_loop : Nat → Nat → List Char
  | 0, n => [Char.ofNat ('0'.toNat + n)]
  | fuel + 1, n =>
      if n < 10 then [Char.ofNat ('0'.toNat + n)]
      else dec_loop fuel (n / 10) ++ [Char.ofNat ('0'.toNat + n % 10)]

/-- Decimal representation of a natural number, as Rust's `format!("{}", n)`
renders a `usize`. -/
def natToDecimal (n : Nat) : List Char :=
  dec_loop n n

/-- The index list traversed by Rust's inclusive range `a..=b` (empty when
`b < a`). -/
def rangeList (a b : Nat) : List Nat :=
  List.range' a (b + 1 - a)

/-- Embedding of `value_range_to_cells` (src/utils.rs lines 229-270). The
unreachable arm models the `unwrap` panics on `GridRange` index fields, which
cannot fire because `a1_to_grid_range` fills every field with `Some`. -/
def value_range_to_cells (sheet_id sheet_title : List Char) (value_range : ValueRange) :
    Except GSheetError (List Cell) :=
  match value_range.range with
  | none => .error (.UtilsError "ValueRange.range is None")
  | some range =>
    match a1_to_grid_range range with
    | .error e => .error e
    | .ok grid_range =>
      match grid_range.start_row_index, grid_range.end_row_index,
            grid_range.start_column_index, grid_range.end_column_index with
      | some sr, some er, some sc, some ec =>
        let all_values := value_range.values.getD [[]]
        (rangeList sr er).foldlM (fun cells row_index =>
          (rangeList sc ec).foldlM (fun cells col_index =>
            match col_index_to_a1 col_index with
            | .error e => .error e
            | .ok col =>
              .ok (cells ++ [{ sheet_id := sheet_id
                               sheet_title := sheet_title
                               address := col ++ natToDecimal row_index
                               value := (all_values[row_index - sr]?).bind
                                 (fun r => r[col_index - sc]?)
                               col := col
                               col_index := col_index
                               row_index := row_index : Cell }])) cells) []
      | _, _, _, _ => .error (.UtilsError "GridRange index is None")

/-- Insert-or-replace into the inner row map, embedding
`HashMap::insert` (a fresh key is appended; an existing key's value is
replaced in place). -/
def alistInsert (k : Nat) (v : Cell) : List (Nat × Cell) → List (Nat × Cell)
  | [] => [(k, v)]
  | (k', v') :: rest =>
      if k' = k then (k, v) :: rest else (k', v') :: alistInsert k v rest

/-- Embedding of `HashMap::contains_key` on the outer column map. -/
def hmContains (m : List (List Char × List (Nat × Cell))) (k : List Char) : Bool :=
  m.any (fun e => e.1 == k)

/-- Embedding of `hash_map.get_mut(&k).unwrap().insert(r, c)` on the outer
column map: the inner map stored at key `k` gets `(r, c)` inserted. -/
def hmUpdateInner (m : List (List Char × List (Nat × Cell))) (k : List Char)
    (r : Nat) (c : Cell) : List (List Char × List (Nat × Cell)) :=
  m.map (fun e => if e.1 == k then (e.1, alistInsert r c e.2) else e)

/-- One iteration of the insertion logic of `value_range_to_hash_cell_map`
(src/utils.rs lines 322-331). -/
def hm_insert (m : List (List Char × List (Nat × Cell))) (cell : Cell) :
    List (List Char × List (Nat × Cell)) :=
  if hmContains m cell.col then hmUpdateInner m cell.col cell.row_index cell
  else m ++ [(cell.col, [(cell.row_index, cell)])]

/-- Embedding of `value_range_to_hash_cell_map` (src/utils.rs lines 285-336).
The nested `HashMap` is modelled as an association list with
insert-or-replace semantics (`hm_insert`); hash-map iteration order is
unspecified in Rust, so every property proved about this model is stated in
an order-insensitive way (multisets, membership, key sets). -/
def value_range_to_hash_cell_map (sheet_id sheet_title : List Char)
    (value_range : ValueRange) :
    Except GSheetError (List (List Char × List (Nat × Cell))) :=
  match value_range.range with
  | none => .error (.UtilsError "ValueRange.range is None")
  | some range =>
    match a1_to_grid_range range with
    | .error e => .error e
    | .ok grid_range =>
      match grid_range.start_row_index, grid_range.end_row_index,
            grid_range.start_column_index, grid_range.end_column_index with
      | some sr, some er, some sc, some ec =>
        let all_values := value_range.values.getD [[]]
        (rangeList sr er).foldlM (fun m row_index =>
          (rangeList sc ec).foldlM (fun m col_index =>
            match col_index_to_a1 col_index with
            | .error e => .error e
            | .ok col =>
              .ok (hm_insert m
                { sheet_id := sheet_id
                  sheet_title := sheet_title
                  address := col ++ natToDecimal row_index
                  value := (all_values[row_index - sr]?).bind
                    (fun r => r[col_index - sc]?)
                  col := col
                  col_index := col_index
                  row_index := row_index : Cell })) m) []
      | _, _, _, _ => .error (.UtilsError "GridRange index is None")

/-- All cells stored in the two-level column map, flattened. -/
def hmCells (m : List (List Char × List (Nat × Cell))) : List Cell :=
  (m.map (fun e => e.2.map Prod.snd)).flatten

/-- The exact (unbounded) base-26 value of a letter run with A=1, ..., Z=26,
AA=27, case-insensitive — the value the parser's `usize` column accumulator
holds whenever no wrap occurs. -/
def base26Val (ls : List Char) : Nat :=
  ls.foldl (fun a c => a * 26 + (c.toUpper.toNat - 'A'.toNat + 1)) 0

/-- The exact (unbounded) base-10 value of a digit run — the value the
parser's `usize` row accumulator holds whenever no wrap occurs. -/
def decimalVal (ds : List Char) : Nat :=
  ds.foldl (fun a c => a * 10 + (c.toNat - '0'.toNat)) 0

/-- The column value actually accumulated by the letter phase of
`parse_a1_cell`: base-26 with `usize` wrap-around at every step. -/
def base26ValU (ls : List Char) : Nat :=
  ls.foldl (fun a c => (a * 26 + (c.toUpper.toNat - 'A'.toNat + 1)) % usizeSize) 0

/-- The row value actually accumulated by the digit phase of
`parse_a1_cell`: base-10 with `usize` wrap-around at every step. -/
def decimalValU (ds : List Char) : Nat :=
  ds.foldl (fun a c => (a * 10 + (c.toNat - '0'.toNat)) % usizeSize) 0

/-- The cell emitted by the reconcilers at coordinate `(r, c)` of a range with
top-left corner `(sr, sc)` — the pure body of the reconciliation loop. -/
def cellPure (sheet_id sheet_title : List Char) (all_values : List (List (List Char)))
    (sr sc r c : Nat) : Cell :=
  { sheet_id := sheet_id
    sheet_title := sheet_title
    address := colAux c ++ natToDecimal r
    value := (all_values[r - sr]?).bind (fun row => row[c - sc]?)
    col := colAux c
    col_index := c
    row_index := r }

/-- The row-major cell list produced by `value_range_to_cells` once the range
has been parsed: rows outer, columns inner, both ascending and inclusive. -/
def cellsPure (sheet_id sheet_title : List Char) (all_values : List (List (List Char)))
    (sr er sc ec : Nat) : List Cell :=
  (rangeList sr er).flatMap (fun r =>
    (rangeList sc ec).map (fun c => cellPure sheet_id sheet_title all_values sr sc r c))

/-- The two-level column map produced by `value_range_to_hash_cell_map` once
the range has been parsed, in first-insertion order of the model. -/
def hmPure (sheet_id sheet_title : List Char) (all_values : List (List (List Char)))
    (sr er sc ec : Nat) : List (List Char × List (Nat × Cell)) :=
  if rangeList sr er = [] then []
  else (rangeList sc ec).map (fun c =>
    (colAux c, (rangeList sr er).map (fun r =>
      (r, cellPure sheet_id sheet_title all_values sr sc r c))))

/-- Modelled from the spec: the least-significant-first digit list of the
standard bijective base-26 conversion (no zero digit) described for
`format_column` — repeatedly take `(n-1) mod 26`, then `n := (n-1) div 26`,
until `n` reaches 0. Fuelled to keep the recursion structural. -/
def bij_digits_loop : Nat → Nat → List Nat
  | _, 0 => []
  | 0, _ + 1 => []
  | f + 1, n + 1 => n % 26 :: bij_digits_loop f (n / 26)

/-- Modelled from the spec: `format_column`'s output per the spec's algorithm
description — the bijective base-26 digits, least significant first, rendered
as letters and reversed. -/
def specFormatColumn (n : Nat) : List Char :=
  ((bij_digits_loop n n).map (fun d => Char.ofNat ('A'.toNat + d))).reverse

/-! ### Character-level facts -/

/-- A `UInt32` comparison is the comparison of the underlying numbers. -/
theorem uint32_le_iff (a b : UInt32) : a ≤ b ↔ a.toNat ≤ b.toNat := by
  simp [UInt32.le_def, BitVec.le_def, UInt32.toNat]

/-- A valid code point below the surrogate block is preserved by `Char.ofNat`. -/
theorem toNat_ofNat_valid (m : Nat) (h : m < 55296) : (Char.ofNat m).toNat = m := by
  have hv : m.isValidChar := Or.inl h
  rw [Char.ofNat, dif_pos hv]
  rfl

/-- Characterization of `Char.isUpper` by the numeric code point. -/
theorem isUpper_iff (c : Char) : c.isUpper = true ↔ 65 ≤ c.toNat ∧ c.toNat ≤ 90 := by
  simp only [Char.isUpper, Bool.and_eq_true, decide_eq_true_eq, ge_iff_le,
    uint32_le_iff]
  exact Iff.rfl

/-- Characterization of `Char.isLower` by the numeric code point. -/
theorem isLower_iff (c : Char) : c.isLower = true ↔ 97 ≤ c.toNat ∧ c.toNat ≤ 122 := by
  simp only [Char.isLower, Bool.and_eq_true, decide_eq_true_eq, ge_iff_le,
    uint32_le_iff]
  exact Iff.rfl

/-- Characterization of `Char.isDigit` by the numeric code point. -/
theorem isDigit_iff (c : Char) : c.isDigit = true ↔ 48 ≤ c.toNat ∧ c.toNat ≤ 57 := by
  simp only [Char.isDigit, Bool.and_eq_true, decide_eq_true_eq, ge_iff_le,
    uint32_le_iff]
  exact Iff.rfl

/-- Characterization of `Char.isAlpha` by the numeric code point. -/
theorem isAlpha_iff (c : Char) :
    c.isAlpha = true ↔ (65 ≤ c.toNat ∧ c.toNat ≤ 90) ∨ (97 ≤ c.toNat ∧ c.toNat ≤ 122) := by
  simp only [Char.isAlpha, Bool.or_eq_true, isUpper_iff, isLower_iff]

/-- The code point of an upper-case letter built from an offset `d < 26`. -/
theorem letter_toNat (d : Nat) (h : d < 26) :
    (Char.ofNat ('A'.toNat + d)).toNat = 'A'.toNat + d := by
  have hA : 'A'.toNat = 65 := by decide
  exact toNat_ofNat_valid _ (by omega)

/-- Letters built by the column encoder are upper-case ASCII letters. -/
theorem letter_isAlpha (d : Nat) (h : d < 26) :
    (Char.ofNat ('A'.toNat + d)).isAlpha = true := by
  have hA : 'A'.toNat = 65 := by decide
  rw [isAlpha_iff, letter_toNat d h]
  omega

/-- Letters built by the column encoder satisfy `isUpper`. -/
theorem letter_isUpper (d : Nat) (h : d < 26) :
    (Char.ofNat ('A'.toNat + d)).isUpper = true := by
  have hA : 'A'.toNat = 65 := by decide
  rw [isUpper_iff, letter_toNat d h]
  omega

/-- Letters built by the column encoder are not digits. -/
theorem letter_not_isDigit (d : Nat) (h : d < 26) :
    (Char.ofNat ('A'.toNat + d)).isDigit = false := by
  have hA : 'A'.toNat = 65 := by decide
  rw [← Bool.not_eq_true, isDigit_iff, letter_toNat d h]
  omega

/-- `Char.toUpper` fixes an upper-case ASCII letter. -/
theorem toUpper_of_isUpper (c : Char) (h : c.isUpper = true) : c.toUpper = c := by
  rw [isUpper_iff] at h
  rw [Char.toUpper, if_neg]
  omega

/-- `Char.toUpper` on a character with code point in the lower-case ASCII range. -/
theorem toUpper_of_isLower (c : Char) (h : c.isLower = true) :
    c.toUpper = Char.ofNat (c.toNat - 32) := by
  rw [isLower_iff] at h
  rw [Char.toUpper, if_pos]
  omega

/-- The code point of a digit character built from an offset `d < 10`. -/
theorem digit_toNat (d : Nat) (h : d < 10) :
    (Char.ofNat ('0'.toNat + d)).toNat = '0'.toNat + d := by
  have h0 : '0'.toNat = 48 := by decide
  exact toNat_ofNat_valid _ (by omega)

/-- Digit characters built by the decimal encoder satisfy `isDigit`. -/
theorem digit_isDigit (d : Nat) (h : d < 10) :
    (Char.ofNat ('0'.toNat + d)).isDigit = true := by
  have h0 : '0'.toNat = 48 := by decide
  rw [isDigit_iff, digit_toNat d h]
  omega

/-- Digit characters built by the decimal encoder are not upper-case letters. -/
theorem digit_not_isUpper (d : Nat) (h : d < 10) :
    (Char.ofNat ('0'.toNat + d)).isUpper = false := by
  have h0 : '0'.toNat = 48 := by decide
  rw [← Bool.not_eq_true, isUpper_iff, digit_toNat d h]
  omega

/-- Digit characters built by the decimal encoder are not alphabetic. -/
theorem digit_not_isAlpha (d : Nat) (h : d < 10) :
    (Char.ofNat ('0'.toNat + d)).isAlpha = false := by
  have h0 : '0'.toNat = 48 := by decide
  rw [← Bool.not_eq_true, isAlpha_iff, digit_toNat d h]
  omega

/-- An alphabetic character upper-cases to an upper-case letter whose code
point it determines. -/
theorem toUpper_isAlpha (c : Char) (h : c.isAlpha = true) :
    c.toUpper.isUpper = true ∧
      c.toUpper.toNat = (if c.isUpper then c.toNat else c.toNat - 32) := by
  rw [isAlpha_iff] at h
  rcases h with h | h
  · have hu : c.isUpper = true := by rw [isUpper_iff]; omega
    rw [toUpper_of_isUpper c hu, hu]
    exact ⟨rfl, by simp⟩
  · have hl : c.isLower = true := by rw [isLower_iff]; omega
    have hu : c.isUpper = false := by
      rw [← Bool.not_eq_true, isUpper_iff]; omega
    rw [toUpper_of_isLower c hl, hu]
    have ht : (Char.ofNat (c.toNat - 32)).toNat = c.toNat - 32 :=
      toNat_ofNat_valid _ (by omega)
    refine ⟨?_, by simp [ht]⟩
    rw [isUpper_iff, ht]
    omega

/-! ### The column-letter encoder -/

/-- The fuel argument of `col_loop` is irrelevant as long as it dominates the
index. -/
theorem col_loop_congr (f1 : Nat) : ∀ f2 n, n ≤ f1 → n ≤ f2 →
    col_loop f1 n = col_loop f2 n := by
  induction f1 with
  | zero =>
    intro f2 n h1 _
    have hn : n = 0 := by omega
    subst hn
    cases f2 <;> rfl
  | succ g ih =>
    intro f2 n h1 h2
    cases n with
    | zero => cases f2 <;> rfl
    | succ m =>
      cases f2 with
      | zero => omega
      | succ g2 =>
        show col_loop (g + 1) (m + 1) = col_loop (g2 + 1) (m + 1)
        simp only [col_loop]
        have hd : m / 26 ≤ m := Nat.div_le_self m 26
        rw [ih g2 (m / 26) (by omega) (by omega)]

/-- Unfolding of the column-letter loop at zero. -/
theorem colAux_zero : colAux 0 = [] := rfl

/-- Unfolding of the column-letter loop at a positive index: one division
step, emitting the letter of `n % 26` at the least-significant end. -/
theorem colAux_succ (n : Nat) :
    colAux (n + 1) = colAux (n / 26) ++ [Char.ofNat ('A'.toNat + n % 26)] := by
  show col_loop (n + 1) (n + 1) = colAux (n / 26) ++ [Char.ofNat ('A'.toNat + n % 26)]
  simp only [col_loop]
  rw [colAux, col_loop_congr n (n / 26) (n / 26) (Nat.div_le_self n 26) le_rfl]

/-- Every character of a column-letter string is an upper-case letter built
from an offset below 26. -/
theorem colAux_chars (n : Nat) :
    ∀ c ∈ colAux n, ∃ d, d < 26 ∧ c = Char.ofNat ('A'.toNat + d) := by
  induction n using Nat.strong_induction_on with
  | _ n ih =>
    cases n with
    | zero => simp [colAux_zero]
    | succ m =>
      rw [colAux_succ]
      intro c hc
      rcases List.mem_append.1 hc with h | h
      · exact ih (m / 26) (Nat.lt_succ_of_le (Nat.div_le_self m 26)) c h
      · rw [List.mem_singleton] at h
        exact ⟨m % 26, by omega, h⟩

/-- The column-letter string of a positive index is nonempty. -/
theorem colAux_ne_nil (n : Nat) (h : 0 < n) : colAux n ≠ [] := by
  obtain ⟨m, rfl⟩ : ∃ m, n = m + 1 := ⟨n - 1, by omega⟩
  rw [colAux_succ]
  simp

/-- The letter phase of `parse_a1_cell` inverts the column-letter encoder. -/
theorem base26Val_colAux (n : Nat) : base26Val (colAux n) = n := by
  induction n using Nat.strong_induction_on with
  | _ n ih =>
    cases n with
    | zero => rfl
    | succ m =>
      rw [colAux_succ, base26Val, List.foldl_append]
      have hrec : List.foldl (fun a c => a * 26 + (c.toUpper.toNat - 'A'.toNat + 1)) 0
          (colAux (m / 26)) = m / 26 :=
        ih (m / 26) (Nat.lt_succ_of_le (Nat.div_le_self m 26))
      rw [hrec]
      have hup := toUpper_of_isUpper _ (letter_isUpper (m % 26) (by omega))
      rw [List.foldl_cons, List.foldl_nil, hup, letter_toNat (m % 26) (by omega)]
      have hdm := Nat.div_add_mod m 26
      have hA : 'A'.toNat = 65 := by decide
      omega

/-- The column-letter encoder is injective. -/
theorem colAux_inj (a b : Nat) (h : colAux a = colAux b) : a = b := by
  have ha := base26Val_colAux a
  rw [h, base26Val_colAux] at ha
  omega

/-! ### The decimal renderer -/

/-- The fuel argument of `dec_loop` is irrelevant as long as it dominates the
argument. -/
theorem dec_loop_congr (f1 : Nat) : ∀ f2 n, n ≤ f1 → n ≤ f2 →
    dec_loop f1 n = dec_loop f2 n := by
  induction f1 with
  | zero =>
    intro f2 n h1 _
    have hn : n = 0 := by omega
    subst hn
    cases f2 with
    | zero => rfl
    | succ g => simp [dec_loop]
  | succ g ih =>
    intro f2 n h1 h2
    by_cases hlt : n < 10
    · cases f2 with
      | zero =>
        have hn : n = 0 := by omega
        subst hn
        simp [dec_loop]
      | succ g2 => simp [dec_loop, hlt]
    · cases f2 with
      | zero => omega
      | succ g2 =>
        simp only [dec_loop, if_neg hlt]
        have hd : n / 10 < n := Nat.div_lt_self (by omega) (by omega)
        rw [ih g2 (n / 10) (by omega) (by omega)]

/-- Unfolding of the decimal renderer on a single digit. -/
theorem natToDecimal_lt (n : Nat) (h : n < 10) :
    natToDecimal n = [Char.ofNat ('0'.toNat + n)] := by
  cases n with
  | zero => rfl
  | succ m => simp [natToDecimal, dec_loop, h]

/-- Unfolding of the decimal renderer on a multi-digit number. -/
theorem natToDecimal_ge (n : Nat) (h : 10 ≤ n) :
    natToDecimal n = natToDecimal (n / 10) ++ [Char.ofNat ('0'.toNat + n % 10)] := by
  obtain ⟨m, rfl⟩ : ∃ m, n = m + 1 := ⟨n - 1, by omega⟩
  show dec_loop (m + 1) (m + 1) = _
  simp only [dec_loop, if_neg (by omega : ¬ m + 1 < 10)]
  have hd : (m + 1) / 10 < m + 1 := Nat.div_lt_self (by omega) (by omega)
  rw [natToDecimal, dec_loop_congr m ((m + 1) / 10) ((m + 1) / 10) (by omega) le_rfl]

/-- Every character of a rendered decimal is a digit character built from an
offset below 10. -/
theorem natToDecimal_chars (n : Nat) :
    ∀ c ∈ natToDecimal n, ∃ d, d < 10 ∧ c = Char.ofNat ('0'.toNat + d) := by
  induction n using Nat.strong_induction_on with
  | _ n ih =>
    by_cases hlt : n < 10
    · rw [natToDecimal_lt n hlt]
      intro c hc
      rw [List.mem_singleton] at hc
      exact ⟨n, hlt, hc⟩
    · rw [natToDecimal_ge n (by omega)]
      intro c hc
      rcases List.mem_append.1 hc with h | h
      · exact ih (n / 10) (Nat.div_lt_self (by omega) (by omega)) c h
      · rw [List.mem_singleton] at h
        exact ⟨n % 10, by omega, h⟩

/-- A rendered decimal is never empty. -/
theorem natToDecimal_ne_nil (n : Nat) : natToDecimal n ≠ [] := by
  by_cases hlt : n < 10
  · rw [natToDecimal_lt n hlt]; simp
  · rw [natToDecimal_ge n (by omega)]; simp

/-- The digit phase of `parse_a1_cell` inverts the decimal renderer. -/
theorem decimalVal_natToDecimal (n : Nat) : decimalVal (natToDecimal n) = n := by
  induction n using Nat.strong_induction_on with
  | _ n ih =>
    by_cases hlt : n < 10
    · rw [natToDecimal_lt n hlt, decimalVal, List.foldl_cons, List.foldl_nil,
        digit_toNat n hlt]
      have h0 : '0'.toNat = 48 := by decide
      omega
    · rw [natToDecimal_ge n (by omega), decimalVal, List.foldl_append]
      have hrec : List.foldl (fun a c => a * 10 + (c.toNat - '0'.toNat)) 0
          (natToDecimal (n / 10)) = n / 10 :=
        ih (n / 10) (Nat.div_lt_self (by omega) (by omega))
      rw [hrec, List.foldl_cons, List.foldl_nil, digit_toNat (n % 10) (by omega)]
      have hdm := Nat.div_add_mod n 10
      have h0 : '0'.toNat = 48 := by decide
      omega

/-- The decimal renderer is injective. -/
theorem natToDecimal_inj (a b : Nat) (h : natToDecimal a = natToDecimal b) : a = b := by
  have ha := decimalVal_natToDecimal a
  rw [h, decimalVal_natToDecimal] at ha
  omega

/-! ### Address injectivity -/

/-- `takeWhile` stops exactly at the boundary between an all-true prefix and
an all-false suffix. -/
theorem takeWhile_all_append (p : Char → Bool) (a b : List Char)
    (ha : ∀ x ∈ a, p x = true) (hb : ∀ x ∈ b, p x = false) :
    (a ++ b).takeWhile p = a := by
  induction a with
  | nil =>
    cases b with
    | nil => rfl
    | cons c cs =>
      simp [List.takeWhile_cons, hb c (List.mem_cons_self c cs)]
  | cons c cs ih =>
    simp only [List.cons_append, List.takeWhile_cons, ha c (List.mem_cons_self c cs),
      if_true]
    rw [ih (fun x hx => ha x (List.mem_cons_of_mem c hx))]

/-- Every character of a column-letter string satisfies `isUpper`. -/
theorem colAux_isUpper (n : Nat) : ∀ c ∈ colAux n, c.isUpper = true := by
  intro c hc
  obtain ⟨d, hd, rfl⟩ := colAux_chars n c hc
  exact letter_isUpper d hd

/-- No character of a rendered decimal satisfies `isUpper`. -/
theorem natToDecimal_not_isUpper (n : Nat) : ∀ c ∈ natToDecimal n, c.isUpper = false := by
  intro c hc
  obtain ⟨d, hd, rfl⟩ := natToDecimal_chars n c hc
  exact digit_not_isUpper d hd

/-- A cell address determines its coordinate: the letter prefix and digit
suffix can be recovered unambiguously. -/
theorem address_inj (c1 r1 c2 r2 : Nat)
    (h : colAux c1 ++ natToDecimal r1 = colAux c2 ++ natToDecimal r2) :
    c1 = c2 ∧ r1 = r2 := by
  have h1 : (colAux c1 ++ natToDecimal r1).takeWhile Char.isUpper = colAux c1 :=
    takeWhile_all_append _ _ _ (colAux_isUpper c1) (natToDecimal_not_isUpper r1)
  have h2 : (colAux c2 ++ natToDecimal r2).takeWhile Char.isUpper = colAux c2 :=
    takeWhile_all_append _ _ _ (colAux_isUpper c2) (natToDecimal_not_isUpper r2)
  have hcol : colAux c1 = colAux c2 := by rw [← h1, ← h2, h]
  have hc := colAux_inj _ _ hcol
  subst hc
  have hdec : natToDecimal r1 = natToDecimal r2 := by
    exact List.append_cancel_left h
  exact ⟨rfl, natToDecimal_inj _ _ hdec⟩

/-! ### The cell-reference decoder -/

/-- A digit character is not alphabetic. -/
theorem digit_not_alpha (c : Char) (h : c.isDigit = true) : c.isAlpha = false := by
  rw [isDigit_iff] at h
  rw [← Bool.not_eq_true, isAlpha_iff]
  omega

/-- The code-point range of an alphanumeric ASCII character. -/
theorem alnum_toNat_range (c : Char) (h : c.isAlpha = true ∨ c.isDigit = true) :
    (48 ≤ c.toNat ∧ c.toNat ≤ 57) ∨ (65 ≤ c.toNat ∧ c.toNat ≤ 90) ∨
      (97 ≤ c.toNat ∧ c.toNat ≤ 122) := by
  rcases h with h | h
  · rw [isAlpha_iff] at h
    omega
  · rw [isDigit_iff] at h
    omega

/-- Two characters with different code points differ. -/
theorem ne_of_toNat_ne (c d : Char) (h : c.toNat ≠ d.toNat) : c ≠ d :=
  fun he => h (he ▸ rfl)

/-- Alphanumeric characters are not whitespace. -/
theorem alnum_not_ws (c : Char) (h : c.isAlpha = true ∨ c.isDigit = true) :
    c.isWhitespace = false := by
  have hr := alnum_toNat_range c h
  simp only [Char.isWhitespace, Bool.or_eq_false_iff, decide_eq_false_iff_not]
  have h1 : ' '.toNat = 32 := by decide
  have h2 : '\t'.toNat = 9 := by decide
  have h3 : '\r'.toNat = 13 := by decide
  have h4 : '\n'.toNat = 10 := by decide
  exact ⟨⟨⟨ne_of_toNat_ne _ _ (by omega), ne_of_toNat_ne _ _ (by omega)⟩,
    ne_of_toNat_ne _ _ (by omega)⟩, ne_of_toNat_ne _ _ (by omega)⟩

/-- Positivity is preserved by the base-26 accumulation step. -/
theorem base26_foldl_pos (ls : List Char) :
    ∀ init : Nat, 0 < init →
      0 < ls.foldl (fun a c => a * 26 + (c.toUpper.toNat - 'A'.toNat + 1)) init := by
  induction ls with
  | nil => intro init h; exact h
  | cons c cs ih =>
    intro init h
    rw [List.foldl_cons]
    exact ih _ (by omega)

/-- The letter run of a nonempty reference has a positive column value. -/
theorem base26Val_pos (ls : List Char) (h : ls ≠ []) : 0 < base26Val ls := by
  cases ls with
  | nil => exact absurd rfl h
  | cons c cs =>
    rw [base26Val, List.foldl_cons]
    exact base26_foldl_pos cs _ (by omega)

/-- The letter phase of the `parse_a1_cell` loop: alphabetic characters are
consumed into the wrapping column accumulator while `col_part` is set. -/
theorem parse_go_letters (ls : List Char) (hla : ∀ c ∈ ls, c.isAlpha = true) :
    ∀ (rest : List Char) (col row : Nat),
      parse_a1_cell_go (ls ++ rest) col row true =
        parse_a1_cell_go rest
          (ls.foldl (fun a c => (a * 26 + (c.toUpper.toNat - 'A'.toNat + 1)) % usizeSize) col)
          row true := by
  induction ls with
  | nil => intro rest col row; rfl
  | cons c cs ih =>
    intro rest col row
    have hc : c.isAlpha = true := hla c (List.mem_cons_self c cs)
    simp only [List.cons_append, parse_a1_cell_go, hc, Bool.true_and, if_true,
      List.foldl_cons]
    exact ih (fun x hx => hla x (List.mem_cons_of_mem c hx)) rest _ row

/-- The digit phase of the `parse_a1_cell` loop: digits are consumed into
the wrapping row accumulator, and the final guard decides acceptance. -/
theorem parse_go_digits (ds : List Char) (hdd : ∀ c ∈ ds, c.isDigit = true) :
    ∀ (col row : Nat) (b : Bool),
      parse_a1_cell_go ds col row b =
        if 0 < col ∧
            0 < ds.foldl (fun a c => (a * 10 + (c.toNat - '0'.toNat)) % usizeSize) row
        then .ok (col, ds.foldl (fun a c => (a * 10 + (c.toNat - '0'.toNat)) % usizeSize) row)
        else .error (.UtilsError "Invalid A1 notation") := by
  induction ds with
  | nil => intro col row b; rfl
  | cons c cs ih =>
    intro col row b
    have hc : c.isDigit = true := hdd c (List.mem_cons_self c cs)
    have hna : c.isAlpha = false := digit_not_alpha c hc
    simp only [parse_a1_cell_go, hna, Bool.false_and, Bool.false_eq_true, if_false,
      hc, if_true, List.foldl_cons]
    exact ih (fun x hx => hdd x (List.mem_cons_of_mem c hx)) col _ false

/-- `parse_a1_cell` on a letter run followed by a digit run: accepted exactly
when both wrapped accumulators are nonzero, returning them as the result. -/
theorem parse_a1_cell_split (ls ds : List Char)
    (hla : ∀ c ∈ ls, c.isAlpha = true) (hdd : ∀ c ∈ ds, c.isDigit = true) :
    parse_a1_cell (ls ++ ds) =
      if 0 < base26ValU ls ∧ 0 < decimalValU ds
      then .ok (base26ValU ls, decimalValU ds)
      else .error (.UtilsError "Invalid A1 notation") := by
  rw [parse_a1_cell, parse_go_letters ls hla ds 0 0, parse_go_digits ds hdd]
  rfl

/-- The exact base-26 accumulation never decreases. -/
theorem base26_exact_mono (ls : List Char) :
    ∀ init : Nat,
      init ≤ ls.foldl (fun a c => a * 26 + (c.toUpper.toNat - 'A'.toNat + 1)) init := by
  induction ls with
  | nil => intro init; exact le_rfl
  | cons c cs ih =>
    intro init
    rw [List.foldl_cons]
    exact le_trans (by omega) (ih _)

/-- The exact base-10 accumulation never decreases. -/
theorem decimal_exact_mono (ds : List Char) :
    ∀ init : Nat,
      init ≤ ds.foldl (fun a c => a * 10 + (c.toNat - '0'.toNat)) init := by
  induction ds with
  | nil => intro init; exact le_rfl
  | cons c cs ih =>
    intro init
    rw [List.foldl_cons]
    exact le_trans (by omega) (ih _)

/-- While the exact base-26 value stays below the `usize` range, the wrapping
accumulator computes it exactly. -/
theorem base26_fold_modeq (ls : List Char) :
    ∀ init : Nat,
      ls.foldl (fun a c => a * 26 + (c.toUpper.toNat - 'A'.toNat + 1)) init < usizeSize →
      ls.foldl (fun a c => (a * 26 + (c.toUpper.toNat - 'A'.toNat + 1)) % usizeSize) init =
        ls.foldl (fun a c => a * 26 + (c.toUpper.toNat - 'A'.toNat + 1)) init := by
  induction ls with
  | nil => intro init _; rfl
  | cons c cs ih =>
    intro init htot
    rw [List.foldl_cons] at htot ⊢
    rw [List.foldl_cons]
    have hstep : init * 26 + (c.toUpper.toNat - 'A'.toNat + 1) < usizeSize :=
      lt_of_le_of_lt (base26_exact_mono cs _) htot
    rw [Nat.mod_eq_of_lt hstep]
    exact ih _ htot

/-- While the exact base-10 value stays below the `usize` range, the wrapping
accumulator computes it exactly. -/
theorem decimal_fold_modeq (ds : List Char) :
    ∀ init : Nat,
      ds.foldl (fun a c => a * 10 + (c.toNat - '0'.toNat)) init < usizeSize →
      ds.foldl (fun a c => (a * 10 + (c.toNat - '0'.toNat)) % usizeSize) init =
        ds.foldl (fun a c => a * 10 + (c.toNat - '0'.toNat)) init := by
  induction ds with
  | nil => intro init _; rfl
  | cons c cs ih =>
    intro init htot
    rw [List.foldl_cons] at htot ⊢
    rw [List.foldl_cons]
    have hstep : init * 10 + (c.toNat - '0'.toNat) < usizeSize :=
      lt_of_le_of_lt (decimal_exact_mono cs _) htot
    rw [Nat.mod_eq_of_lt hstep]
    exact ih _ htot

/-- A letter run whose base-26 value fits in `usize` is accumulated exactly. -/
theorem base26ValU_eq_of_lt (ls : List Char) (h : base26Val ls < usizeSize) :
    base26ValU ls = base26Val ls :=
  base26_fold_modeq ls 0 h

/-- A digit run whose decimal value fits in `usize` is accumulated exactly. -/
theorem decimalValU_eq_of_lt (ds : List Char) (h : decimalVal ds < usizeSize) :
    decimalValU ds = decimalVal ds :=
  decimal_fold_modeq ds 0 h

/-- Accepted parses have strictly positive column and row. -/
theorem parse_go_pos (l : List Char) :
    ∀ (col row : Nat) (b : Bool) (c r : Nat),
      parse_a1_cell_go l col row b = .ok (c, r) → 0 < c ∧ 0 < r := by
  induction l with
  | nil =>
    intro col row b c r h
    simp only [parse_a1_cell_go] at h
    split at h
    · rename_i hp
      injection h with h
      injection h with h1 h2
      subst h1; subst h2
      exact hp
    · exact absurd h (by simp)
  | cons x xs ih =>
    intro col row b c r h
    simp only [parse_a1_cell_go] at h
    split at h
    · exact ih _ _ _ _ _ h
    · split at h
      · exact ih _ _ _ _ _ h
      · exact absurd h (by simp)

/-- Accepted parses have strictly positive column and row. -/
theorem parse_a1_cell_pos (a1 : List Char) (c r : Nat)
    (h : parse_a1_cell a1 = .ok (c, r)) : 0 < c ∧ 0 < r :=
  parse_go_pos a1 0 0 true c r h

/-- Every character of an accepted reference is an ASCII letter or digit. -/
theorem parse_go_chars (l : List Char) :
    ∀ (col row : Nat) (b : Bool) (p : Nat × Nat),
      parse_a1_cell_go l col row b = .ok p →
        ∀ c ∈ l, c.isAlpha = true ∨ c.isDigit = true := by
  induction l with
  | nil => intro col row b p _ c hc; exact absurd hc (List.not_mem_nil c)
  | cons x xs ih =>
    intro col row b p h c hc
    simp only [parse_a1_cell_go] at h
    rcases List.mem_cons.1 hc with rfl | hc'
    · split at h
      · rename_i hcond
        rw [Bool.and_eq_true] at hcond
        exact Or.inl hcond.1
      · split at h
        · rename_i _ hdig
          exact Or.inr hdig
        · exact absurd h (by simp)
    · split at h
      · exact ih _ _ _ _ h c hc'
      · split at h
        · exact ih _ _ _ _ h c hc'
        · exact absurd h (by simp)

/-- Every character of an accepted reference is an ASCII letter or digit. -/
theorem parse_a1_cell_chars (a1 : List Char) (p : Nat × Nat)
    (h : parse_a1_cell a1 = .ok p) : ∀ c ∈ a1, c.isAlpha = true ∨ c.isDigit = true :=
  parse_go_chars a1 0 0 true p h

/-! ### Range parsing -/

/-- `dropWhile` is the identity when no character satisfies the predicate. -/
theorem dropWhile_all_false (p : Char → Bool) (s : List Char)
    (h : ∀ c ∈ s, p c = false) : s.dropWhile p = s := by
  cases s with
  | nil => rfl
  | cons c cs => simp [List.dropWhile_cons, h c (List.mem_cons_self c cs)]

/-- Trimming a whitespace-free string is the identity. -/
theorem trimChars_id (s : List Char) (h : ∀ c ∈ s, c.isWhitespace = false) :
    trimChars s = s := by
  rw [trimChars, dropWhile_all_false _ s h,
    dropWhile_all_false _ s.reverse (fun c hc => h c (List.mem_reverse.1 hc))]
  exact List.reverse_reverse s

/-- `contains` is false for an absent element. -/
theorem contains_eq_false (s : List Char) (a : Char) (h : a ∉ s) :
    s.contains a = false := by
  rw [← Bool.not_eq_true]
  intro hc
  exact h (List.mem_of_elem_eq_true hc)

/-- `splitOn` over a separator-free string is the singleton of that string. -/
theorem splitOn_no_sep (s : List Char) (a : Char) (h : ∀ c ∈ s, c ≠ a) :
    s.splitOn a = [s] := by
  rw [List.splitOn]
  refine List.splitOnP_eq_single _ _ ?_
  intro x hx hbeq
  exact h x hx (by simpa using hbeq)

/-- `splitOn` over exactly one separator yields the two separated parts. -/
theorem splitOn_one_sep (s1 s2 : List Char) (a : Char)
    (h1 : ∀ c ∈ s1, c ≠ a) (h2 : ∀ c ∈ s2, c ≠ a) :
    (s1 ++ a :: s2).splitOn a = [s1, s2] := by
  rw [List.splitOn]
  rw [List.splitOnP_first _ s1 (fun x hx hbeq => h1 x hx (by simpa using hbeq)) a
    (by simp)]
  rw [show List.splitOnP (fun b => b == a) s2 = List.splitOn a s2 from rfl]
  rw [splitOn_no_sep s2 a h2]

/-- Alphanumeric characters differ from `'!'`. -/
theorem alnum_ne_bang (c : Char) (h : c.isAlpha = true ∨ c.isDigit = true) :
    c ≠ '!' := by
  have hr := alnum_toNat_range c h
  have hb : '!'.toNat = 33 := by decide
  exact ne_of_toNat_ne _ _ (by omega)

/-- Alphanumeric characters differ from `':'`. -/
theorem alnum_ne_colon (c : Char) (h : c.isAlpha = true ∨ c.isDigit = true) :
    c ≠ ':' := by
  have hr := alnum_toNat_range c h
  have hb : ':'.toNat = 58 := by decide
  exact ne_of_toNat_ne _ _ (by omega)

/-- Decomposition of an accepted range parse: the resulting `GridRange` is
exactly the two parsed cell references, every index field is `some`, and all
indices are positive. -/
theorem a1_to_grid_range_parts (a1 : List Char) (gr : GridRange)
    (h : a1_to_grid_range a1 = .ok gr) :
    ∃ s e sc sr ec er, parse_a1_cell s = .ok (sc, sr) ∧ parse_a1_cell e = .ok (ec, er) ∧
      gr = { sheet_id := none
             start_row_index := some sr
             end_row_index := some er
             start_column_index := some sc
             end_column_index := some ec } := by
  unfold a1_to_grid_range at h
  simp only [] at h
  split at h
  · exact absurd h (by simp)
  · split at h
    · exact absurd h (by simp)
    · split at h
      · exact absurd h (by simp)
      · split at h
        · exact absurd h (by simp)
        · rename_i sheet_res range_part hsheet pair_res s e hpair x1 sc sr hs x2 ec er he
          injection h with h
          exact ⟨s, e, sc, sr, ec, er, hs, he, h.symm⟩

/-- The parsed bounds of an accepted range are positive and stored as given. -/
theorem a1_to_grid_range_shape (a1 : List Char) (gr : GridRange)
    (h : a1_to_grid_range a1 = .ok gr) :
    ∃ sr er sc ec,
      gr = { sheet_id := none
             start_row_index := some sr
             end_row_index := some er
             start_column_index := some sc
             end_column_index := some ec } ∧
      0 < sr ∧ 0 < er ∧ 0 < sc ∧ 0 < ec := by
  obtain ⟨s, e, sc, sr, ec, er, hs, he, hgr⟩ := a1_to_grid_range_parts a1 gr h
  obtain ⟨hsc, hsr⟩ := parse_a1_cell_pos s _ _ hs
  obtain ⟨hec, her⟩ := parse_a1_cell_pos e _ _ he
  exact ⟨sr, er, sc, ec, hgr, hsr, her, hsc, hec⟩

/-- Composition law for `a1_to_grid_range` on a two-cell range built from two
accepted references: the bounds are returned exactly as parsed, first cell as
the start, second as the end, with no reordering and no validation. -/
theorem a1_to_grid_range_append (s e : List Char) (sc sr ec er : Nat)
    (h1 : parse_a1_cell s = .ok (sc, sr)) (h2 : parse_a1_cell e = .ok (ec, er)) :
    a1_to_grid_range (s ++ ':' :: e) =
      .ok { sheet_id := none
            start_row_index := some sr
            end_row_index := some er
            start_column_index := some sc
            end_column_index := some ec } := by
  have hch1 := parse_a1_cell_chars s _ h1
  have hch2 := parse_a1_cell_chars e _ h2
  have hws : ∀ c ∈ s ++ ':' :: e, c.isWhitespace = false := by
    intro c hc
    rcases List.mem_append.1 hc with hc | hc
    · exact alnum_not_ws c (hch1 c hc)
    · rcases List.mem_cons.1 hc with rfl | hc
      · decide
      · exact alnum_not_ws c (hch2 c hc)
  have hbang : (s ++ ':' :: e).contains '!' = false := by
    refine contains_eq_false _ _ ?_
    intro hmem
    rcases List.mem_append.1 hmem with hc | hc
    · exact alnum_ne_bang _ (hch1 _ hc) rfl
    · rcases List.mem_cons.1 hc with hc | hc
      · exact absurd hc.symm (by decide)
      · exact alnum_ne_bang _ (hch2 _ hc) rfl
  have hsplit : (s ++ ':' :: e).splitOn ':' = [s, e] :=
    splitOn_one_sep s e ':' (fun c hc => alnum_ne_colon c (hch1 c hc))
      (fun c hc => alnum_ne_colon c (hch2 c hc))
  unfold a1_to_grid_range
  simp only [trimChars_id _ hws, hbang, if_false, hsplit, h1, h2, Bool.false_eq_true]

/-! ### Reconciler closed forms -/

/-- `col_index_to_a1` succeeds on every positive index. -/
theorem col_index_to_a1_pos (c : Nat) (h : c ≠ 0) :
    col_index_to_a1 c = .ok (colAux c) := by
  rw [col_index_to_a1, if_neg h]

/-- A `foldlM` over `Except` whose body always succeeds is the corresponding
pure fold. -/
theorem foldlM_ok {α β : Type} (g : β → α → β) (F : β → α → Except GSheetError β)
    (l : List α) (h : ∀ a ∈ l, ∀ b, F b a = .ok (g b a)) :
    ∀ b, l.foldlM F b = .ok (l.foldl g b) := by
  induction l with
  | nil => intro b; rfl
  | cons x xs ih =>
    intro b
    rw [List.foldlM_cons, h x (List.mem_cons_self x xs) b]
    show xs.foldlM F (g b x) = .ok ((x :: xs).foldl g b)
    rw [List.foldl_cons]
    exact ih (fun a ha b' => h a (List.mem_cons_of_mem x ha) b') (g b x)

/-- Folding an append-singleton step is an append of the mapped list. -/
theorem foldl_append_singleton {α β : Type} (f : α → β) (l : List α) :
    ∀ init : List β, l.foldl (fun acc x => acc ++ [f x]) init = init ++ l.map f := by
  induction l with
  | nil => intro init; simp
  | cons x xs ih =>
    intro init
    rw [List.foldl_cons, ih, List.map_cons]
    simp

/-- Folding an append step is an append of the flattened maps. -/
theorem foldl_append_flatMap {α β : Type} (f : α → List β) (l : List α) :
    ∀ init : List β, l.foldl (fun acc x => acc ++ f x) init = init ++ l.flatMap f := by
  induction l with
  | nil => intro init; simp
  | cons x xs ih =>
    intro init
    rw [List.foldl_cons, ih, List.flatMap_cons]
    simp

/-- Closed form of `value_range_to_cells` once the range parses: the row-major
pure cell list `cellsPure`. -/
theorem value_range_to_cells_eq (sid st : List Char) (vr : ValueRange)
    (rs : List Char) (gr : GridRange) (sr er sc ec : Nat)
    (h1 : vr.range = some rs) (h2 : a1_to_grid_range rs = .ok gr)
    (hsr : gr.start_row_index = some sr) (her : gr.end_row_index = some er)
    (hsc : gr.start_column_index = some sc) (hec : gr.end_column_index = some ec)
    (hsc0 : 0 < sc) :
    value_range_to_cells sid st vr =
      .ok (cellsPure sid st (vr.values.getD [[]]) sr er sc ec) := by
  unfold value_range_to_cells
  rw [h1]
  simp only []
  rw [h2]
  simp only []
  rw [hsr, her, hsc, hec]
  simp only []
  have hrow : ∀ r ∈ rangeList sr er, ∀ b : List Cell,
      (rangeList sc ec).foldlM (fun cells col_index =>
        match col_index_to_a1 col_index with
        | Except.error e => Except.error e
        | Except.ok col =>
          Except.ok (cells ++ [{ sheet_id := sid
                                 sheet_title := st
                                 address := col ++ natToDecimal r
                                 value := ((vr.values.getD [[]])[r - sr]?).bind
                                   (fun row => row[col_index - sc]?)
                                 col := col
                                 col_index := col_index
                                 row_index := r : Cell }])) b =
      Except.ok ((rangeList sc ec).foldl (fun cells c =>
        cells ++ [cellPure sid st (vr.values.getD [[]]) sr sc r c]) b) := by
    intro r _ b
    refine foldlM_ok _ _ _ ?_ b
    intro c hc b'
    have hcpos : 0 < c := by
      have := (List.mem_range'_1.1 hc).1
      omega
    rw [col_index_to_a1_pos c (by omega)]
    rfl
  rw [foldlM_ok _ _ _ (fun r hr b => hrow r hr b) []]
  simp only [foldl_append_singleton, foldl_append_flatMap, List.nil_append]
  rfl

/-! ### Hash-map model lemmas -/

/-- Inserting a fresh row key appends to the inner association list. -/
theorem alistInsert_fresh (k : Nat) (v : Cell) (l : List (Nat × Cell))
    (h : k ∉ l.map Prod.fst) : alistInsert k v l = l ++ [(k, v)] := by
  induction l with
  | nil => rfl
  | cons p rest ih =>
    obtain ⟨k', v'⟩ := p
    rw [List.map_cons] at h
    rw [alistInsert, if_neg (fun he => h (by simp [he]))]
    rw [ih (fun hm => h (List.mem_cons_of_mem _ hm))]
    rfl

/-- `hmContains` distributes over append. -/
theorem hmContains_append (a b : List (List Char × List (Nat × Cell))) (k : List Char) :
    hmContains (a ++ b) k = (hmContains a k || hmContains b k) := by
  simp [hmContains]

/-- One `hm_insert` into a map holding exactly the columns of `D`: only the
matching column's inner list changes. -/
theorem hm_insert_complete (D : List Nat) (g : Nat → List (Nat × Cell)) (c0 : Nat)
    (hc0 : c0 ∈ D) (cell : Cell) (hcol : cell.col = colAux c0) :
    hm_insert (D.map fun c => (colAux c, g c)) cell =
      D.map fun c =>
        (colAux c, if c = c0 then alistInsert cell.row_index cell (g c) else g c) := by
  rw [hm_insert]
  have hcont : hmContains (D.map fun c => (colAux c, g c)) cell.col = true := by
    rw [hmContains]
    refine List.any_eq_true.2 ⟨(colAux c0, g c0), List.mem_map_of_mem _ hc0, ?_⟩
    simp [hcol]
  rw [if_pos hcont, hmUpdateInner, List.map_map]
  refine List.map_congr_left ?_
  intro c hc
  by_cases hceq : c = c0
  · subst hceq
    simp [hcol]
  · have hne : (colAux c == cell.col) = false := by
      rw [hcol, beq_eq_false_iff_ne]
      exact fun he => hceq (colAux_inj _ _ he)
    have hne' : colAux c ≠ cell.col := by
      rw [hcol]
      exact fun he => hceq (colAux_inj _ _ he)
    simp only [Function.comp_apply, hne, Bool.false_eq_true, if_false, if_neg hceq]

/-- Folding a row's insertions over columns already present updates each
column's inner list exactly once. -/
theorem fold_insert_existing (mk : Nat → Nat → Cell) (r : Nat)
    (hmk : ∀ c, (mk r c).col = colAux c ∧ (mk r c).row_index = r) (D : List Nat) :
    ∀ cs : List Nat, cs.Nodup → (∀ c ∈ cs, c ∈ D) → ∀ g : Nat → List (Nat × Cell),
      cs.foldl (fun m c => hm_insert m (mk r c)) (D.map fun c => (colAux c, g c)) =
        D.map fun c =>
          (colAux c, if c ∈ cs then alistInsert r (mk r c) (g c) else g c) := by
  intro cs
  induction cs with
  | nil =>
    intro _ _ g
    simp
  | cons c0 cs' ih =>
    intro hnd hsub g
    rw [List.foldl_cons,
      hm_insert_complete D g c0 (hsub c0 (List.mem_cons_self c0 cs')) (mk r c0)
        (hmk c0).1]
    have hg1 : (D.map fun c =>
        (colAux c, if c = c0 then alistInsert (mk r c0).row_index (mk r c0) (g c) else g c)) =
        D.map fun c =>
          (colAux c, if c = c0 then alistInsert r (mk r c) (g c) else g c) := by
      refine List.map_congr_left ?_
      intro c _
      by_cases hceq : c = c0
      · subst hceq
        rw [(hmk c).2]
      · simp [hceq]
    rw [hg1, ih (List.Nodup.of_cons hnd) (fun c hc => hsub c (List.mem_cons_of_mem c0 hc))
      (fun c => if c = c0 then alistInsert r (mk r c) (g c) else g c)]
    refine List.map_congr_left ?_
    intro c _
    have hc0n : c0 ∉ cs' := (List.nodup_cons.1 hnd).1
    by_cases h1 : c ∈ cs'
    · have hne : c ≠ c0 := fun he => hc0n (he ▸ h1)
      simp [h1, hne, List.mem_cons]
    · by_cases h2 : c = c0
      · subst h2
        simp [h1, hc0n]
      · simp [h1, h2, List.mem_cons]

/-- Folding a row's insertions over columns absent from the map appends one
singleton column entry per column, in order. -/
theorem fold_insert_fresh (mk : Nat → Nat → Cell) (r : Nat)
    (hmk : ∀ c, (mk r c).col = colAux c ∧ (mk r c).row_index = r) :
    ∀ cs : List Nat, cs.Nodup →
      ∀ m0 : List (List Char × List (Nat × Cell)),
        (∀ c ∈ cs, hmContains m0 (colAux c) = false) →
        cs.foldl (fun m c => hm_insert m (mk r c)) m0 =
          m0 ++ cs.map fun c => (colAux c, [(r, mk r c)]) := by
  intro cs
  induction cs with
  | nil => intro _ m0 _; simp
  | cons c0 cs' ih =>
    intro hnd m0 hfresh
    rw [List.foldl_cons, hm_insert, (hmk c0).1, (hmk c0).2,
      if_neg (by rw [hfresh c0 (List.mem_cons_self c0 cs')]; simp)]
    rw [ih (List.Nodup.of_cons hnd) _ ?_]
    · rw [List.append_assoc]
      rfl
    · intro c hc
      rw [hmContains_append, hfresh c (List.mem_cons_of_mem c0 hc)]
      have hne : (colAux c0 == colAux c) = false := by
        rw [beq_eq_false_iff_ne]
        intro he
        exact (List.nodup_cons.1 hnd).1 (colAux_inj _ _ he ▸ hc)
      simp [hmContains, hne]

/-- Processing further rows over a map already holding every column of `D`
appends one inner entry per row to every column, in order. -/
theorem fold_rows (mk : Nat → Nat → Cell)
    (hmk : ∀ r c, (mk r c).col = colAux c ∧ (mk r c).row_index = r)
    (D : List Nat) (hD : D.Nodup) :
    ∀ rest done : List Nat, (done ++ rest).Nodup →
      rest.foldl (fun m r => D.foldl (fun m c => hm_insert m (mk r c)) m)
        (D.map fun c => (colAux c, done.map fun r => (r, mk r c))) =
      D.map fun c => (colAux c, (done ++ rest).map fun r => (r, mk r c)) := by
  intro rest
  induction rest with
  | nil =>
    intro done _
    rw [List.append_nil]
    rfl
  | cons r rest' ih =>
    intro done hnd
    rw [List.foldl_cons,
      fold_insert_existing mk r (fun c => hmk r c) D D hD (fun _ hc => hc)
        (fun c => done.map fun r' => (r', mk r' c))]
    have hrdone : r ∉ done := by
      intro hr
      exact List.disjoint_of_nodup_append hnd hr (List.mem_cons_self r rest')
    have hstep : (D.map fun c =>
        (colAux c, if c ∈ D then alistInsert r (mk r c) (done.map fun r' => (r', mk r' c))
          else done.map fun r' => (r', mk r' c))) =
        D.map fun c => (colAux c, (done ++ [r]).map fun r' => (r', mk r' c)) := by
      refine List.map_congr_left ?_
      intro c hc
      rw [if_pos hc, alistInsert_fresh r (mk r c) _ (by simpa using hrdone)]
      simp
    rw [hstep, ih (done ++ [r]) (by rwa [List.append_assoc, List.singleton_append]),
      List.append_assoc, List.singleton_append]

/-- Closed form of `value_range_to_hash_cell_map` once the range parses: the
two-level pure map `hmPure`. -/
theorem value_range_to_hash_cell_map_eq (sid st : List Char) (vr : ValueRange)
    (rs : List Char) (gr : GridRange) (sr er sc ec : Nat)
    (h1 : vr.range = some rs) (h2 : a1_to_grid_range rs = .ok gr)
    (hsr : gr.start_row_index = some sr) (her : gr.end_row_index = some er)
    (hsc : gr.start_column_index = some sc) (hec : gr.end_column_index = some ec)
    (hsc0 : 0 < sc) :
    value_range_to_hash_cell_map sid st vr =
      .ok (hmPure sid st (vr.values.getD [[]]) sr er sc ec) := by
  unfold value_range_to_hash_cell_map
  rw [h1]
  simp only []
  rw [h2]
  simp only []
  rw [hsr, her, hsc, hec]
  simp only []
  have hrow : ∀ r ∈ rangeList sr er, ∀ m : List (List Char × List (Nat × Cell)),
      (rangeList sc ec).foldlM (fun m col_index =>
        match col_index_to_a1 col_index with
        | Except.error e => Except.error e
        | Except.ok col =>
          Except.ok (hm_insert m
            { sheet_id := sid
              sheet_title := st
              address := col ++ natToDecimal r
              value := ((vr.values.getD [[]])[r - sr]?).bind
                (fun row => row[col_index - sc]?)
              col := col
              col_index := col_index
              row_index := r : Cell })) m =
      Except.ok ((rangeList sc ec).foldl (fun m c =>
        hm_insert m (cellPure sid st (vr.values.getD [[]]) sr sc r c)) m) := by
    intro r _ m
    refine foldlM_ok _ _ _ ?_ m
    intro c hc m'
    have hcpos : 0 < c := by
      have := (List.mem_range'_1.1 hc).1
      omega
    rw [col_index_to_a1_pos c (by omega)]
    rfl
  rw [foldlM_ok _ _ _ (fun r hr m => hrow r hr m) []]
  have hnodupD : (rangeList sc ec).Nodup := List.nodup_range' sc (ec + 1 - sc)
  cases hrows : rangeList sr er with
  | nil =>
    rw [hmPure, if_pos hrows]
    rfl
  | cons r0 rest =>
    rw [List.foldl_cons,
      fold_insert_fresh (fun r c => cellPure sid st (vr.values.getD [[]]) sr sc r c) r0
        (fun c => ⟨rfl, rfl⟩) (rangeList sc ec) hnodupD [] (fun c _ => rfl),
      List.nil_append]
    have hshape : ((rangeList sc ec).map fun c =>
        (colAux c, [(r0, cellPure sid st (vr.values.getD [[]]) sr sc r0 c)])) =
        (rangeList sc ec).map fun c =>
          (colAux c, [r0].map fun r =>
            (r, cellPure sid st (vr.values.getD [[]]) sr sc r c)) := rfl
    rw [hshape,
      fold_rows (fun r c => cellPure sid st (vr.values.getD [[]]) sr sc r c)
        (fun r c => ⟨rfl, rfl⟩) (rangeList sc ec) hnodupD rest [r0]
        (by rw [List.singleton_append, ← hrows]; exact List.nodup_range' sr (er + 1 - sr)),
      List.singleton_append]
    rw [hmPure, if_neg (by rw [hrows]; simp), hrows]

/-! ### Transpose permutation -/

/-- Distributing a head element over a flatMap is a permutation of prepending
the mapped heads. -/
theorem map_cons_flatMap_perm {β γ : Type} (g : β → γ) (h : β → List γ) (l : List β) :
    (l.map g ++ l.flatMap h).Perm (l.flatMap fun b => g b :: h b) := by
  induction l with
  | nil => simp
  | cons b l' ih =>
    simp only [List.map_cons, List.flatMap_cons, List.cons_append]
    refine List.Perm.cons (g b) ?_
    refine List.Perm.trans ?_ (List.Perm.append_left (h b) ih)
    rw [← List.append_assoc, ← List.append_assoc]
    exact List.Perm.append_right _ List.perm_append_comm

/-- Row-major and column-major flattenings of a rectangular grid are
permutations of each other. -/
theorem flatMap_swap_perm {α β γ : Type} (f : α → β → γ) (l1 : List α) (l2 : List β) :
    (l1.flatMap fun a => l2.map fun b => f a b).Perm
      (l2.flatMap fun b => l1.map fun a => f a b) := by
  induction l1 with
  | nil =>
    simp only [List.flatMap_nil, List.map_nil]
    have : (l2.flatMap fun _ => ([] : List γ)) = [] := by
      induction l2 with
      | nil => rfl
      | cons b l2' ih2 => simp [List.flatMap_cons, ih2]
    rw [this]
  | cons a l1' ih =>
    simp only [List.flatMap_cons, List.map_cons]
    exact List.Perm.trans (List.Perm.append_left _ ih)
      (map_cons_flatMap_perm (fun b => f a b) (fun b => l1'.map fun a' => f a' b) l2)

/-! ### Cardinality and uniqueness -/

/-- Length of a flatMap whose pieces all have the same length. -/
theorem length_flatMap_const {α β : Type} (f : α → List β) (k : Nat) (l : List α)
    (h : ∀ a ∈ l, (f a).length = k) : (l.flatMap f).length = l.length * k := by
  induction l with
  | nil => simp
  | cons x xs ih =>
    rw [List.flatMap_cons, List.length_append, h x (List.mem_cons_self x xs),
      ih (fun a ha => h a (List.mem_cons_of_mem x ha)), List.length_cons]
    ring

/-- The cell list of a parsed range has exactly one cell per coordinate. -/
theorem cellsPure_length (sid st : List Char) (all : List (List (List Char)))
    (sr er sc ec : Nat) :
    (cellsPure sid st all sr er sc ec).length = (er + 1 - sr) * (ec + 1 - sc) := by
  rw [cellsPure,
    length_flatMap_const _ (ec + 1 - sc) _
      (fun r _ => by rw [List.length_map, rangeList, List.length_range']),
    rangeList, List.length_range']

/-- The addresses emitted for a parsed range are pairwise distinct. -/
theorem cellsPure_addresses_nodup (sid st : List Char) (all : List (List (List Char)))
    (sr er sc ec : Nat) :
    ((cellsPure sid st all sr er sc ec).map Cell.address).Nodup := by
  rw [cellsPure, List.map_flatMap]
  simp only [List.map_map]
  rw [List.nodup_flatMap]
  constructor
  · intro r _
    refine List.Nodup.map ?_ (List.nodup_range' sc (ec + 1 - sc))
    intro c1 c2 hcc
    have := address_inj c1 r c2 r hcc
    exact this.1
  · have hnd : (rangeList sr er).Nodup := List.nodup_range' sr (er + 1 - sr)
    refine List.Pairwise.imp_of_mem ?_ (hnd.imp (fun hne => hne))
    intro r1 r2 _ _ hne
    intro a ha1 ha2
    simp only [List.mem_map, Function.comp_apply] at ha1 ha2
    obtain ⟨c1, _, hc1⟩ := ha1
    obtain ⟨c2, _, hc2⟩ := ha2
    have : (cellPure sid st all sr sc r1 c1).address =
        (cellPure sid st all sr sc r2 c2).address := by rw [hc1, hc2]
    exact hne (address_inj c1 r1 c2 r2 this).2

/-! ### Roundtrips between the encoder and the decoder -/

/-- Unfolding of the column-letter encoder by one bijective base-26 digit. -/
theorem colAux_mul26_add (m v : Nat) (h1 : 1 ≤ v) (h2 : v ≤ 26) :
    colAux (m * 26 + v) = colAux m ++ [Char.ofNat ('A'.toNat + (v - 1))] := by
  have hk : m * 26 + v = (m * 26 + (v - 1)) + 1 := by omega
  rw [hk, colAux_succ]
  have hdiv : (m * 26 + (v - 1)) / 26 = m := by omega
  have hmod : (m * 26 + (v - 1)) % 26 = v - 1 := by omega
  rw [hdiv, hmod]

/-- The column-letter encoder inverts the letter phase of the decoder: the
letters of any alphabetic run, upper-cased, are recovered from its base-26
value. -/
theorem colAux_base26Val (ls : List Char) (hne : ls ≠ [])
    (hla : ∀ c ∈ ls, c.isAlpha = true) :
    colAux (base26Val ls) = ls.map Char.toUpper := by
  induction ls using List.reverseRecOn with
  | nil => exact absurd rfl hne
  | append_singleton xs c ih =>
    have hc : c.isAlpha = true := hla c (by simp)
    obtain ⟨hu, _⟩ := toUpper_isAlpha c hc
    rw [isUpper_iff] at hu
    have hval : base26Val (xs ++ [c]) =
        base26Val xs * 26 + (c.toUpper.toNat - 'A'.toNat + 1) := by
      rw [base26Val, List.foldl_append, List.foldl_cons, List.foldl_nil]
      rfl
    have hA : 'A'.toNat = 65 := by decide
    have hvr : 1 ≤ c.toUpper.toNat - 'A'.toNat + 1 ∧ c.toUpper.toNat - 'A'.toNat + 1 ≤ 26 := by
      omega
    rw [hval, colAux_mul26_add _ _ hvr.1 hvr.2]
    have hch : Char.ofNat ('A'.toNat + (c.toUpper.toNat - 'A'.toNat + 1 - 1)) = c.toUpper := by
      have : 'A'.toNat + (c.toUpper.toNat - 'A'.toNat + 1 - 1) = c.toUpper.toNat := by omega
      rw [this, Char.ofNat_toNat]
    rw [hch]
    cases xs with
    | nil =>
      have hb : base26Val [] = 0 := rfl
      rw [hb, colAux_zero]
      simp
    | cons x xs' =>
      rw [ih (by simp) (fun a ha => hla a (List.mem_append_left _ ha)), List.map_append]
      rfl

/-- `parse_a1_cell` inverts `col_index_to_a1` for every `usize`-representable
positive column index: formatting it and appending row digit `1` parses back
to that index. -/
theorem parse_colAux_roundtrip (n : Nat) (h : 0 < n) (hlt : n < usizeSize) :
    parse_a1_cell (colAux n ++ ['1']) = .ok (n, 1) := by
  rw [parse_a1_cell_split (colAux n) ['1']
    (fun c hc => by
      obtain ⟨d, hd, rfl⟩ := colAux_chars n c hc
      exact letter_isAlpha d hd)
    (fun c hc => by
      rw [List.mem_singleton] at hc
      subst hc
      decide)]
  have hbu : base26ValU (colAux n) = n := by
    rw [base26ValU_eq_of_lt (colAux n) (by rw [base26Val_colAux]; exact hlt),
      base26Val_colAux]
  have hdv : decimalValU ['1'] = 1 := by decide
  rw [hbu, hdv, if_pos ⟨h, by omega⟩]

/-! ### The spec's description of `format_column` -/

/-- The fuel argument of `bij_digits_loop` is irrelevant while it dominates
the index. -/
theorem bij_loop_congr (f1 : Nat) : ∀ f2 n, n ≤ f1 → n ≤ f2 →
    bij_digits_loop f1 n = bij_digits_loop f2 n := by
  induction f1 with
  | zero =>
    intro f2 n h1 _
    have hn : n = 0 := by omega
    subst hn
    cases f2 <;> rfl
  | succ g ih =>
    intro f2 n h1 h2
    cases n with
    | zero => cases f2 <;> rfl
    | succ m =>
      cases f2 with
      | zero => omega
      | succ g2 =>
        show bij_digits_loop (g + 1) (m + 1) = bij_digits_loop (g2 + 1) (m + 1)
        simp only [bij_digits_loop]
        have hd : m / 26 ≤ m := Nat.div_le_self m 26
        rw [ih g2 (m / 26) (by omega) (by omega)]

/-- Unfolding of the spec-modelled formatter at a positive index. -/
theorem specFormatColumn_succ (n : Nat) :
    specFormatColumn (n + 1) =
      specFormatColumn (n / 26) ++ [Char.ofNat ('A'.toNat + n % 26)] := by
  show ((bij_digits_loop (n + 1) (n + 1)).map _).reverse = _
  have hstep : bij_digits_loop (n + 1) (n + 1) = n % 26 :: bij_digits_loop (n / 26) (n / 26) := by
    show bij_digits_loop (n + 1) (n + 1) = _
    simp only [bij_digits_loop]
    rw [bij_loop_congr n (n / 26) (n / 26) (Nat.div_le_self n 26) le_rfl]
  rw [hstep, List.map_cons, List.reverse_cons]
  rfl

/-- The code's `col_index_to_a1` loop computes exactly the spec's bijective
base-26 conversion. -/
theorem colAux_eq_spec (n : Nat) : colAux n = specFormatColumn n := by
  induction n using Nat.strong_induction_on with
  | _ n ih =>
    cases n with
    | zero => rfl
    | succ m =>
      rw [colAux_succ, specFormatColumn_succ,
        ih (m / 26) (Nat.lt_succ_of_le (Nat.div_le_self m 26))]

/-! ### Membership in the pure cell list -/

/-- Every emitted cell arises from a coordinate of the parsed rectangle. -/
theorem cellsPure_mem (sid st : List Char) (all : List (List (List Char)))
    (sr er sc ec : Nat) (cell : Cell)
    (h : cell ∈ cellsPure sid st all sr er sc ec) :
    ∃ r c, r ∈ rangeList sr er ∧ c ∈ rangeList sc ec ∧
      cell = cellPure sid st all sr sc r c := by
  rw [cellsPure, List.mem_flatMap] at h
  obtain ⟨r, hr, hmem⟩ := h
  rw [List.mem_map] at hmem
  obtain ⟨c, hc, rfl⟩ := hmem
  exact ⟨r, c, hr, hc, rfl⟩

/-! ### Claim theorems -/

/-- C1, counterexample: the claim says a reversed input such as "B10:A1" is
rejected with `InvalidRange`; in fact `a1_to_grid_range` accepts it and
returns `start_row = 10 > end_row = 1` and `start_column = 2 > end_column = 1`. -/
theorem claim1_counterexample :
    a1_to_grid_range ("B10:A1".toList) =
      Except.ok { sheet_id := none
                  start_row_index := some 10
                  end_row_index := some 1
                  start_column_index := some 2
                  end_column_index := some 1 } ∧
    ¬(10 ≤ 1) ∧ ¬(2 ≤ 1) := by
  refine ⟨by decide, by decide, by decide⟩

/-- C1, amended: `a1_to_grid_range` performs no ordering validation — for any
two accepted cell references, the range built from them is accepted and the
`GridRange` carries the bounds exactly as parsed (first reference as start,
second as end, no reordering, no rejection); `start ≤ end` therefore holds
only when the references happen to be given in non-decreasing order. -/
theorem claim1_theorem (s e : List Char) (sc sr ec er : Nat)
    (h1 : parse_a1_cell s = .ok (sc, sr)) (h2 : parse_a1_cell e = .ok (ec, er)) :
    a1_to_grid_range (s ++ ':' :: e) =
      .ok { sheet_id := none
            start_row_index := some sr
            end_row_index := some er
            start_column_index := some sc
            end_column_index := some ec } :=
  a1_to_grid_range_append s e sc sr ec er h1 h2

/-- C1, witness: the amended theorem applied to the reversed pair
"B10" and "A1". -/
theorem claim1_witness :
    a1_to_grid_range ("B10".toList ++ ':' :: "A1".toList) =
      .ok { sheet_id := none
            start_row_index := some 10
            end_row_index := some 1
            start_column_index := some 2
            end_column_index := some 1 } :=
  claim1_theorem "B10".toList "A1".toList 2 10 1 1 (by decide) (by decide)

/-- C2, counterexample: for the reversed range "C1:A1" (which parses), the
cell list is empty, so its length is not
`(end_row - start_row + 1) * (end_column - start_column + 1)` — the formula
gives 1 under truncated natural subtraction and -1 over the integers. -/
theorem claim2_counterexample :
    a1_to_grid_range ("C1:A1".toList) =
      Except.ok { sheet_id := none
                  start_row_index := some 1
                  end_row_index := some 1
                  start_column_index := some 3
                  end_column_index := some 1 } ∧
    value_range_to_cells [] [] { range := some ("C1:A1".toList)
                                 major_dimension := none
                                 values := none } = Except.ok [] ∧
    (1 - 1 + 1) * (1 - 3 + 1) ≠ (0 : Nat) ∧
    ((1 : Int) - 1 + 1) * ((1 : Int) - 3 + 1) ≠ (0 : Int) := by
  refine ⟨by decide, by decide, by decide, by decide⟩

/-- C2, amended: for every `ValueRange` whose range string parses to a
`GridRange` with `start_row ≤ end_row` and `start_column ≤ end_column`,
`value_range_to_cells` returns exactly
`(end_row - start_row + 1) * (end_column - start_column + 1)` cells, emitted
in row-major order (rows outer and ascending, columns inner and ascending,
independent of the payload's major-dimension tag, which the function never
reads), and the emitted addresses are pairwise distinct. For reversed ranges
the list is empty instead (claim C10). -/
theorem claim2_theorem (sid st : List Char) (vr : ValueRange) (rs : List Char)
    (gr : GridRange) (sr er sc ec : Nat)
    (h1 : vr.range = some rs) (h2 : a1_to_grid_range rs = .ok gr)
    (hsr : gr.start_row_index = some sr) (her : gr.end_row_index = some er)
    (hsc : gr.start_column_index = some sc) (hec : gr.end_column_index = some ec)
    (hr : sr ≤ er) (hc : sc ≤ ec) :
    ∃ cells, value_range_to_cells sid st vr = .ok cells ∧
      cells.length = (er - sr + 1) * (ec - sc + 1) ∧
      cells = (rangeList sr er).flatMap (fun r =>
        (rangeList sc ec).map (fun c =>
          cellPure sid st (vr.values.getD [[]]) sr sc r c)) ∧
      (cells.map Cell.address).Nodup := by
  have hsc0 : 0 < sc := by
    obtain ⟨sr', er', sc', ec', hgr, _, _, hp, _⟩ := a1_to_grid_range_shape rs gr h2
    rw [hgr] at hsc
    injection hsc with hsc
    omega
  refine ⟨cellsPure sid st (vr.values.getD [[]]) sr er sc ec,
    value_range_to_cells_eq sid st vr rs gr sr er sc ec h1 h2 hsr her hsc hec hsc0,
    ?_, rfl, cellsPure_addresses_nodup sid st _ sr er sc ec⟩
  rw [cellsPure_length]
  have e1 : er + 1 - sr = er - sr + 1 := by omega
  have e2 : ec + 1 - sc = ec - sc + 1 := by omega
  rw [e1, e2]

/-- C2, witness: the amended theorem applied to the spec's own example,
range "A1:B2" with a full 2×2 value grid. -/
theorem claim2_witness :
    ∃ cells, value_range_to_cells ("sid".toList) ("st".toList)
        { range := some ("A1:B2".toList)
          major_dimension := some Dimension.Rows
          values := some [["1".toList, "2".toList], ["3".toList, "4".toList]] } =
        .ok cells ∧
      cells.length = (2 - 1 + 1) * (2 - 1 + 1) ∧
      cells = (rangeList 1 2).flatMap (fun r =>
        (rangeList 1 2).map (fun c =>
          cellPure ("sid".toList) ("st".toList)
            [["1".toList, "2".toList], ["3".toList, "4".toList]] 1 1 r c)) ∧
      (cells.map Cell.address).Nodup :=
  claim2_theorem ("sid".toList) ("st".toList) _ ("A1:B2".toList)
    { sheet_id := none
      start_row_index := some 1
      end_row_index := some 2
      start_column_index := some 1
      end_column_index := some 2 } 1 2 1 2
    rfl (by decide) rfl rfl rfl rfl (by decide) (by decide)

/-- C5, counterexample: "A0" is a run of letters followed by a run of digits,
hence a valid input under the claim's definition, yet `parse_a1_cell`
rejects it (the computed row index is 0) instead of returning a strictly
positive pair. -/
theorem claim5_counterexample :
    ("A0".toList = ['A'] ++ ['0']) ∧ 'A'.isAlpha = true ∧ '0'.isDigit = true ∧
    parse_a1_cell ("A0".toList) =
      Except.error (GSheetError.UtilsError "Invalid A1 notation") := by
  refine ⟨by decide, by decide, by decide, by decide⟩

/-- C5, amended: for every input made of one or more ASCII letters
(case-insensitive) followed by one or more ASCII digits, whose decimal value
is nonzero and whose base-26 and decimal values are representable in the
source's 64-bit `usize` (below `2^64` — beyond that the `usize` accumulators
wrap in release builds or panic in debug builds, so the claimed values are
unrepresentable), `parse_a1_cell` returns the strictly positive pair whose
column is the base-26 value (A=1, ..., Z=26, AA=27) and whose row is the
decimal value of the digit run; in particular "A1" parses to (1,1) and "B3"
to (2,3). An all-zero digit run (e.g. "A0") is rejected instead. -/
theorem claim5_theorem (ls ds : List Char) (hls : ls ≠ [])
    (hla : ∀ c ∈ ls, c.isAlpha = true) (hds : ds ≠ [])
    (hdd : ∀ c ∈ ds, c.isDigit = true) (hpos : 0 < decimalVal ds)
    (hb : base26Val ls < usizeSize) (hd : decimalVal ds < usizeSize) :
    parse_a1_cell (ls ++ ds) = .ok (base26Val ls, decimalVal ds) ∧
      0 < base26Val ls ∧ 0 < decimalVal ds ∧
      parse_a1_cell ("A1".toList) = .ok (1, 1) ∧
      parse_a1_cell ("B3".toList) = .ok (2, 3) := by
  refine ⟨?_, base26Val_pos ls hls, hpos, by decide, by decide⟩
  rw [parse_a1_cell_split ls ds hla hdd, base26ValU_eq_of_lt ls hb,
    decimalValU_eq_of_lt ds hd, if_pos ⟨base26Val_pos ls hls, hpos⟩]

/-- C5, witness: the amended theorem applied to "AA10" — letters "AA",
digits "10", giving column 27 and row 10, far below the `usize` bound. -/
theorem claim5_witness :
    parse_a1_cell ("AA".toList ++ "10".toList) = .ok (base26Val ("AA".toList), decimalVal ("10".toList)) ∧
      0 < base26Val ("AA".toList) ∧ 0 < decimalVal ("10".toList) ∧
      parse_a1_cell ("A1".toList) = .ok (1, 1) ∧
      parse_a1_cell ("B3".toList) = .ok (2, 3) :=
  claim5_theorem ("AA".toList) ("10".toList) (by decide) (by decide) (by decide)
    (by decide) (by decide) (by decide) (by decide)

/-- C6: `col_index_to_a1` fails with the invalid-column error at index 0, and
on every positive index computes exactly the spec's bijective base-26
conversion (no zero digit, letters least-significant-first then reversed);
in particular 1 ↦ "A", 26 ↦ "Z", 27 ↦ "AA". -/
theorem claim6_theorem :
    col_index_to_a1 0 = .error (.UtilsError "Invalid column index") ∧
    (∀ n : Nat, 0 < n → col_index_to_a1 n = .ok (specFormatColumn n)) ∧
    col_index_to_a1 1 = .ok ("A".toList) ∧
    col_index_to_a1 26 = .ok ("Z".toList) ∧
    col_index_to_a1 27 = .ok ("AA".toList) := by
  refine ⟨rfl, ?_, by decide, by decide, by decide⟩
  intro n hn
  rw [col_index_to_a1_pos n (by omega), colAux_eq_spec]

/-- C6, witness: the bijective-base-26 branch of the theorem evaluated at
index 27, whose spec-side conversion is "AA". -/
theorem claim6_witness :
    col_index_to_a1 27 = .ok (specFormatColumn 27) ∧ specFormatColumn 27 = "AA".toList :=
  ⟨claim6_theorem.2.1 27 (by decide), by decide⟩

/-- C8: a `ValueRange` whose range field is `None` makes both reconciler
operations fail with the missing-range error, whatever the values payload. -/
theorem claim8_theorem (sid st : List Char) (vr : ValueRange) (h : vr.range = none) :
    value_range_to_cells sid st vr =
      .error (.UtilsError "ValueRange.range is None") ∧
    value_range_to_hash_cell_map sid st vr =
      .error (.UtilsError "ValueRange.range is None") := by
  constructor
  · rw [value_range_to_cells, h]
  · rw [value_range_to_hash_cell_map, h]

/-- C8, witness: the theorem applied to a range-less payload that still
carries values. -/
theorem claim8_witness :
    value_range_to_cells [] [] { range := none
                                 major_dimension := some Dimension.Rows
                                 values := some [["x".toList]] } =
      .error (.UtilsError "ValueRange.range is None") ∧
    value_range_to_hash_cell_map [] [] { range := none
                                         major_dimension := some Dimension.Rows
                                         values := some [["x".toList]] } =
      .error (.UtilsError "ValueRange.range is None") :=
  claim8_theorem [] [] _ rfl

/-- C9: the malformed inputs listed by the claim are all rejected —
"1A", "", "A", "A0" by the cell-reference decoder (invalid-reference
errors), and "A1:B2:C3", "Sheet1!Sheet2!A1" by the range decoder
(invalid-range errors). -/
theorem claim9_theorem :
    parse_a1_cell ("1A".toList) = .error (.UtilsError "Invalid character") ∧
    parse_a1_cell ("".toList) = .error (.UtilsError "Invalid A1 notation") ∧
    parse_a1_cell ("A".toList) = .error (.UtilsError "Invalid A1 notation") ∧
    parse_a1_cell ("A0".toList) = .error (.UtilsError "Invalid A1 notation") ∧
    a1_to_grid_range ("A1:B2:C3".toList) = .error (.UtilsError "Invalid range") ∧
    a1_to_grid_range ("Sheet1!Sheet2!A1".toList) =
      .error (.UtilsError "Invalid range") := by
  refine ⟨by decide, by decide, by decide, by decide, by decide, by decide⟩

/-- C3: whenever the range parses (which is exactly when both reconciler
operations succeed), the column-grouped map holds the same multiset of cells
as the flat list, regrouped by column letter then row index, and every
column present maps every row of the full range `start_row..end_row`,
including rows whose value is absent. -/
theorem claim3_theorem (sid st : List Char) (vr : ValueRange) (rs : List Char)
    (gr : GridRange) (sr er sc ec : Nat)
    (h1 : vr.range = some rs) (h2 : a1_to_grid_range rs = .ok gr)
    (hsr : gr.start_row_index = some sr) (her : gr.end_row_index = some er)
    (hsc : gr.start_column_index = some sc) (hec : gr.end_column_index = some ec) :
    ∃ cells m, value_range_to_cells sid st vr = .ok cells ∧
      value_range_to_hash_cell_map sid st vr = .ok m ∧
      (hmCells m).Perm cells ∧
      (∀ e ∈ m, e.2.map Prod.fst = rangeList sr er) ∧
      (∀ e ∈ m, ∀ p ∈ e.2, p.2.col = e.1 ∧ p.2.row_index = p.1) := by
  have hsc0 : 0 < sc := by
    obtain ⟨sr', er', sc', ec', hgr, _, _, hp, _⟩ := a1_to_grid_range_shape rs gr h2
    rw [hgr] at hsc
    injection hsc with hsc
    omega
  refine ⟨cellsPure sid st (vr.values.getD [[]]) sr er sc ec,
    hmPure sid st (vr.values.getD [[]]) sr er sc ec,
    value_range_to_cells_eq sid st vr rs gr sr er sc ec h1 h2 hsr her hsc hec hsc0,
    value_range_to_hash_cell_map_eq sid st vr rs gr sr er sc ec h1 h2 hsr her hsc hec hsc0,
    ?_, ?_, ?_⟩
  · by_cases hrows : rangeList sr er = []
    · rw [hmPure, if_pos hrows, cellsPure, hrows]
      exact List.Perm.refl _
    · rw [hmPure, if_neg hrows, cellsPure]
      have hcells : hmCells ((rangeList sc ec).map fun c =>
          (colAux c, (rangeList sr er).map fun r =>
            (r, cellPure sid st (vr.values.getD [[]]) sr sc r c))) =
          (rangeList sc ec).flatMap fun c =>
            (rangeList sr er).map fun r =>
              cellPure sid st (vr.values.getD [[]]) sr sc r c := by
        rw [hmCells, List.map_map, List.flatMap]
        congr 1
        refine List.map_congr_left ?_
        intro c _
        simp [List.map_map]
      rw [hcells]
      exact flatMap_swap_perm
        (fun c r => cellPure sid st (vr.values.getD [[]]) sr sc r c)
        (rangeList sc ec) (rangeList sr er)
  · intro e he
    rw [hmPure] at he
    by_cases hrows : rangeList sr er = []
    · rw [if_pos hrows] at he
      exact absurd he (List.not_mem_nil e)
    · rw [if_neg hrows, List.mem_map] at he
      obtain ⟨c, _, rfl⟩ := he
      rw [List.map_map]
      exact (List.map_congr_left fun r _ => rfl).trans (List.map_id _)
  · intro e he p hp
    rw [hmPure] at he
    by_cases hrows : rangeList sr er = []
    · rw [if_pos hrows] at he
      exact absurd he (List.not_mem_nil e)
    · rw [if_neg hrows, List.mem_map] at he
      obtain ⟨c, _, rfl⟩ := he
      rw [List.mem_map] at hp
      obtain ⟨r, _, rfl⟩ := hp
      exact ⟨rfl, rfl⟩

/-- C3, witness: the theorem applied to the spec's grouped-map example,
range "A1:B2" with a full 2×2 value grid. -/
theorem claim3_witness :
    ∃ cells m, value_range_to_cells [] []
        { range := some ("A1:B2".toList)
          major_dimension := some Dimension.Rows
          values := some [["1".toList, "2".toList], ["3".toList, "4".toList]] } =
        .ok cells ∧
      value_range_to_hash_cell_map [] []
        { range := some ("A1:B2".toList)
          major_dimension := some Dimension.Rows
          values := some [["1".toList, "2".toList], ["3".toList, "4".toList]] } =
        .ok m ∧
      (hmCells m).Perm cells ∧
      (∀ e ∈ m, e.2.map Prod.fst = rangeList 1 2) ∧
      (∀ e ∈ m, ∀ p ∈ e.2, p.2.col = e.1 ∧ p.2.row_index = p.1) :=
  claim3_theorem [] [] _ ("A1:B2".toList)
    { sheet_id := none
      start_row_index := some 1
      end_row_index := some 2
      start_column_index := some 1
      end_column_index := some 2 } 1 2 1 2
    rfl (by decide) rfl rfl rfl rfl

/-- C4, counterexample: "a1" is a valid reference, its parsed column is 1,
and `col_index_to_a1 1` returns "A" — which is not the letter prefix "a" of
the input, so formatting inverts parsing only up to upper-casing. -/
theorem claim4_counterexample :
    parse_a1_cell ("a1".toList) = .ok (1, 1) ∧
    col_index_to_a1 1 = .ok ("A".toList) ∧
    ("a1".toList).takeWhile Char.isAlpha = "a".toList ∧
    "A".toList ≠ "a".toList := by
  refine ⟨by decide, by decide, by decide, by decide⟩

/-- C4, amended: (1) for every positive column index `n` representable in
the source's 64-bit `usize` (`n < 2^64`, which covers all of the claim's
range [1, 1000]), `parse_a1_cell (col_index_to_a1 n ++ "1")` returns column
`n` (and row 1); (2) for every valid reference, written as a nonempty letter
run followed by a digit run, whose base-26 column value is representable in
`usize` (14+-letter runs overflow the source's accumulator, wrapping or
panicking), formatting the parsed column yields the UPPER-CASED letter
prefix of the input (equal to the letter prefix itself only for upper-case
input). -/
theorem claim4_theorem :
    (∀ n : Nat, 0 < n → n < usizeSize →
      parse_a1_cell (colAux n ++ ['1']) = .ok (n, 1)) ∧
    (∀ ls ds : List Char, ls ≠ [] → (∀ c ∈ ls, c.isAlpha = true) →
      (∀ c ∈ ds, c.isDigit = true) → base26Val ls < usizeSize → ∀ col row : Nat,
      parse_a1_cell (ls ++ ds) = .ok (col, row) →
      col_index_to_a1 col =
        .ok (((ls ++ ds).takeWhile Char.isAlpha).map Char.toUpper)) := by
  constructor
  · exact fun n hn hlt => parse_colAux_roundtrip n hn hlt
  · intro ls ds hne hla hdd hb col row hok
    rw [parse_a1_cell_split ls ds hla hdd] at hok
    split at hok
    · injection hok with hok
      have hcol : col = base26ValU ls := (Prod.mk.injEq _ _ _ _ ▸ hok).1.symm
      rw [base26ValU_eq_of_lt ls hb] at hcol
      have htw : (ls ++ ds).takeWhile Char.isAlpha = ls :=
        takeWhile_all_append _ _ _ hla
          (fun c hc => by rw [← Bool.not_eq_true]; simp [digit_not_alpha c (hdd c hc)])
      rw [htw, hcol, col_index_to_a1_pos _ (by have := base26Val_pos ls hne; omega),
        colAux_base26Val ls hne hla]
    · exact absurd hok (by simp)

/-- C4, witness: part (1) at column 28 ("AB"), part (2) at the lower-case
reference "b3", whose parsed column 2 formats to "B", the upper-cased
letter prefix. -/
theorem claim4_witness :
    parse_a1_cell (colAux 28 ++ ['1']) = .ok (28, 1) ∧
    col_index_to_a1 2 =
      .ok ((("b3".toList).takeWhile Char.isAlpha).map Char.toUpper) :=
  ⟨claim4_theorem.1 28 (by decide) (by decide),
    claim4_theorem.2 ("b".toList) ("3".toList) (by decide) (by decide) (by decide)
      (by decide) 2 3 (by decide)⟩

/-- C7: once the range of a `ValueRange` parses, `value_range_to_cells`
succeeds and never fails on value lookup: every emitted cell's value is the
optional lookup at offset `(row - start_row, col - start_column)`, and it is
absent whenever that offset falls outside the (possibly missing, short or
ragged) value array. -/
theorem claim7_theorem (sid st : List Char) (vr : ValueRange) (rs : List Char)
    (gr : GridRange) (sr er sc ec : Nat)
    (h1 : vr.range = some rs) (h2 : a1_to_grid_range rs = .ok gr)
    (hsr : gr.start_row_index = some sr) (her : gr.end_row_index = some er)
    (hsc : gr.start_column_index = some sc) (hec : gr.end_column_index = some ec) :
    ∃ cells, value_range_to_cells sid st vr = .ok cells ∧
      (∀ cell ∈ cells, cell.value =
        ((vr.values.getD [[]])[cell.row_index - sr]?).bind
          (fun row => row[cell.col_index - sc]?)) ∧
      (∀ cell ∈ cells, (vr.values.getD [[]]).length ≤ cell.row_index - sr →
        cell.value = none) ∧
      (∀ cell ∈ cells, ∀ rowvals, (vr.values.getD [[]])[cell.row_index - sr]? = some rowvals →
        rowvals.length ≤ cell.col_index - sc → cell.value = none) := by
  have hsc0 : 0 < sc := by
    obtain ⟨sr', er', sc', ec', hgr, _, _, hp, _⟩ := a1_to_grid_range_shape rs gr h2
    rw [hgr] at hsc
    injection hsc with hsc
    omega
  refine ⟨cellsPure sid st (vr.values.getD [[]]) sr er sc ec,
    value_range_to_cells_eq sid st vr rs gr sr er sc ec h1 h2 hsr her hsc hec hsc0,
    ?_, ?_, ?_⟩
  · intro cell hcell
    obtain ⟨r, c, _, _, rfl⟩ := cellsPure_mem sid st _ sr er sc ec cell hcell
    rfl
  · intro cell hcell hlen
    obtain ⟨r, c, _, _, rfl⟩ := cellsPure_mem sid st _ sr er sc ec cell hcell
    have hlen' : (vr.values.getD [[]]).length ≤ r - sr := hlen
    show ((vr.values.getD [[]])[r - sr]?).bind _ = none
    rw [List.getElem?_eq_none hlen']
    rfl
  · intro cell hcell rowvals hrow hlen
    obtain ⟨r, c, _, _, rfl⟩ := cellsPure_mem sid st _ sr er sc ec cell hcell
    have hrow' : (vr.values.getD [[]])[r - sr]? = some rowvals := hrow
    have hlen' : rowvals.length ≤ c - sc := hlen
    show ((vr.values.getD [[]])[r - sr]?).bind _ = none
    rw [hrow']
    show rowvals[c - sc]? = none
    exact List.getElem?_eq_none hlen'

/-- C7, witness: the theorem applied to the spec's ragged-tolerance example
("A1:C1" with values [["x"]]), together with the fully evaluated result:
three cells where A1 carries "x" and B1, C1 are absent. -/
theorem claim7_witness :
    (∃ cells, value_range_to_cells [] []
        { range := some ("A1:C1".toList)
          major_dimension := none
          values := some [["x".toList]] } = .ok cells ∧
      (∀ cell ∈ cells, cell.value =
        ((some [["x".toList]] : Option (List (List (List Char)))).getD
            [[]])[cell.row_index - 1]?.bind
          (fun row => row[cell.col_index - 1]?)) ∧
      (∀ cell ∈ cells,
        ((some [["x".toList]] : Option (List (List (List Char)))).getD [[]]).length ≤
          cell.row_index - 1 → cell.value = none) ∧
      (∀ cell ∈ cells, ∀ rowvals,
        ((some [["x".toList]] : Option (List (List (List Char)))).getD
            [[]])[cell.row_index - 1]? = some rowvals →
        rowvals.length ≤ cell.col_index - 1 → cell.value = none)) ∧
    value_range_to_cells [] [] { range := some ("A1:C1".toList)
                                 major_dimension := none
                                 values := some [["x".toList]] } =
      .ok [{ address := "A1".toList
             sheet_id := []
             sheet_title := []
             value := some ("x".toList)
             col_index := 1
             col := "A".toList
             row_index := 1 },
           { address := "B1".toList
             sheet_id := []
             sheet_title := []
             value := none
             col_index := 2
             col := "B".toList
             row_index := 1 },
           { address := "C1".toList
             sheet_id := []
             sheet_title := []
             value := none
             col_index := 3
             col := "C".toList
             row_index := 1 }] :=
  ⟨claim7_theorem [] [] _ ("A1:C1".toList)
    { sheet_id := none
      start_row_index := some 1
      end_row_index := some 1
      start_column_index := some 1
      end_column_index := some 3 } 1 1 1 3
    rfl (by decide) rfl rfl rfl rfl, by decide⟩

/-- C10: a range that parses with reversed bounds on either axis is not an
error for the reconcilers — both return `Ok` with an empty list and an empty
map, since the inclusive iteration is empty. -/
theorem claim10_theorem (sid st : List Char) (vr : ValueRange) (rs : List Char)
    (gr : GridRange) (sr er sc ec : Nat)
    (h1 : vr.range = some rs) (h2 : a1_to_grid_range rs = .ok gr)
    (hsr : gr.start_row_index = some sr) (her : gr.end_row_index = some er)
    (hsc : gr.start_column_index = some sc) (hec : gr.end_column_index = some ec)
    (hrev : er < sr ∨ ec < sc) :
    value_range_to_cells sid st vr = .ok [] ∧
    value_range_to_hash_cell_map sid st vr = .ok [] := by
  have hsc0 : 0 < sc := by
    obtain ⟨sr', er', sc', ec', hgr, _, _, hp, _⟩ := a1_to_grid_range_shape rs gr h2
    rw [hgr] at hsc
    injection hsc with hsc
    omega
  have hcells := value_range_to_cells_eq sid st vr rs gr sr er sc ec h1 h2 hsr her hsc hec hsc0
  have hmap := value_range_to_hash_cell_map_eq sid st vr rs gr sr er sc ec h1 h2 hsr her hsc hec hsc0
  rcases hrev with hrev | hrev
  · have hrows : rangeList sr er = [] := by
      rw [rangeList, show er + 1 - sr = 0 by omega]
      rfl
    constructor
    · rw [hcells, cellsPure, hrows]
      rfl
    · rw [hmap, hmPure, if_pos hrows]
  · have hcols : rangeList sc ec = [] := by
      rw [rangeList, show ec + 1 - sc = 0 by omega]
      rfl
    constructor
    · rw [hcells, cellsPure, hcols]
      simp only [List.map_nil]
      have hfm : ((rangeList sr er).flatMap fun _ => ([] : List Cell)) = [] := by
        induction rangeList sr er with
        | nil => rfl
        | cons r rest ih => simp [List.flatMap_cons, ih]
      rw [hfm]
    · rw [hmap, hmPure]
      by_cases hrows : rangeList sr er = []
      · rw [if_pos hrows]
      · rw [if_neg hrows, hcols]
        rfl

/-- C10, witness: the theorem applied to the doubly reversed range "B2:A1"
— both operations return an empty success. -/
theorem claim10_witness :
    value_range_to_cells [] [] { range := some ("B2:A1".toList)
                                 major_dimension := none
                                 values := some [["v".toList]] } = .ok [] ∧
    value_range_to_hash_cell_map [] [] { range := some ("B2:A1".toList)
                                         major_dimension := none
                                         values := some [["v".toList]] } = .ok [] :=
  claim10_theorem [] [] _ ("B2:A1".toList)
    { sheet_id := none
      start_row_index := some 2
      end_row_index := some 1
      start_column_index := some 2
      end_column_index := some 1 } 2 1 2 1
    rfl (by decide) rfl rfl rfl rfl (Or.inl (by decide))

end GSheet
